import Mathlib

/-!
# Verification of the robust aggregation engine of `rgnn_at_scale`

This file gives a shallow embedding, over the real numbers, of the robust
aggregation functions in `rgnn_at_scale/aggregation.py` and proves the
specified properties about them.

Modelling conventions, used throughout:

* `float` values are idealised as real numbers; an adjacency matrix is a
  function `Fin n → Fin n → ℝ` and a feature matrix is `Fin n → Fin d → ℝ`.
* `torch.finfo(dtype).max` is the constant `FMAX` below, and the in-place
  update `t[~torch.isfinite(t)] = max` is modelled as clamping at `FMAX`
  (`min · FMAX`): a real value above `FMAX` corresponds to a float that has
  overflowed to `inf`, which the source maps back to `max`.
* `torch.topk` / `np.argsort` break ties between equal weights in a
  deterministic, implementation-defined way; following the spec
  ("tie-break deterministically, e.g., by original column index") both are
  modelled as sorting by strictly descending weight with ties broken by
  ascending column index (`topRel` below), realised by the stable
  `List.insertionSort`.
* `F.softmax(z, dim=-1)` is modelled as `exp (z i) / ∑ j, exp (z j)`, its
  mathematical value.

The file is organised as: all definitions first, then all lemmas and
theorems.
-/

namespace RGNN

noncomputable section

/-! ## Definitions: numeric constants and the distance primitives -/

/-- Largest finite `float32` value, `torch.finfo(torch.float32).max`
(`(2 - 2⁻²³) · 2¹²⁷`), as a real number. -/
def FMAX : ℝ := 2 ^ 128 - 2 ^ 104

/-- `float32` machine epsilon, `torch.finfo(torch.float32).eps = 2⁻²³`. -/
def machineEps : ℝ := 1 / 2 ^ 23

/-- Squared Euclidean norm of feature row `i`: `(x ** 2).sum(1)` in
`_distance_matrix`. -/
def sqnorm {n d : ℕ} (x : Fin n → Fin d → ℝ) (i : Fin n) : ℝ := ∑ c, (x i c) ^ 2

/-- Inner product of feature rows `i` and `j`: entry `(i, j)` of
`x @ x.transpose(0, 1)` in `_distance_matrix`. -/
def inprod {n d : ℕ} (x : Fin n → Fin d → ℝ) (i j : Fin n) : ℝ := ∑ c, x i c * x j c

/-- `torch.norm(x[i] - x[j], dim=1)`: the exact Euclidean distance between
feature rows `i` and `j` (used by `partial_distance_matrix`). -/
def dist2 {n d : ℕ} (x : Fin n → Fin d → ℝ) (i j : Fin n) : ℝ :=
  Real.sqrt (∑ c, (x i c - x j c) ^ 2)

/-- `_distance_matrix(x, eps_factor)`: the "naive dense distance matrix" with
the "safe sqrt" guard.  The parameter `eps` stands for the product
`eps_factor * torch.finfo(x.dtype).eps` computed inside the source. -/
def distance_matrix {n d : ℕ} (x : Fin n → Fin d → ℝ) (eps : ℝ) (i j : Fin n) : ℝ :=
  Real.sqrt (|sqnorm x i + sqnorm x j - 2 * inprod x i j| + eps)

/-- The guard value used by `_distance_matrix` at its default
`eps_factor = 1e2` on `float32` inputs. -/
def defaultDistEps : ℝ := 100 * machineEps

/-- Concrete all-zero 1×1 feature matrix used by the C10 witness. -/
def zeroFeat : Fin 1 → Fin 1 → ℝ := fun _ _ => 0

/-! ## Definitions: top-k selection (`_select_k_idx_cpu` / `_sparse_top_k`) -/

/-- The deterministic "larger weight first, ties by ascending column index"
linear order on (column, weight) pairs modelling the `argsort` of negated
values in `_select_k_idx_cpu` and `torch.topk` in the dense path. -/
def topRel {n : ℕ} (a b : Fin n × ℝ) : Prop :=
  b.2 < a.2 ∨ (a.2 = b.2 ∧ a.1 ≤ b.1)

instance topRel_decidable {n : ℕ} : DecidableRel (@topRel n) := fun a b => by
  unfold topRel; infer_instance

instance topRel_total {n : ℕ} : IsTotal (Fin n × ℝ) topRel where
  total a b := by
    rcases lt_trichotomy a.2 b.2 with h | h | h
    · exact Or.inr (Or.inl h)
    · rcases le_total a.1 b.1 with h1 | h1
      · exact Or.inl (Or.inr ⟨h, h1⟩)
      · exact Or.inr (Or.inr ⟨h.symm, h1⟩)
    · exact Or.inl (Or.inl h)

instance topRel_trans {n : ℕ} : IsTrans (Fin n × ℝ) topRel where
  trans a b c hab hbc := by
    rcases hab with h1 | ⟨h1, h1'⟩ <;> rcases hbc with h2 | ⟨h2, h2'⟩
    · exact Or.inl (h2.trans h1)
    · exact Or.inl (h2 ▸ h1)
    · exact Or.inl (h1 ▸ h2)
    · exact Or.inr ⟨h1.trans h2, h1'.trans h2'⟩

instance topRel_antisymm {n : ℕ} : IsAntisymm (Fin n × ℝ) topRel where
  antisymm a b hab hba := by
    rcases hab with h1 | ⟨h1, h1'⟩ <;> rcases hba with h2 | ⟨h2, h2'⟩
    · exact absurd (h1.trans h2) (lt_irrefl _)
    · exact absurd h1 (h2 ▸ lt_irrefl _)
    · exact absurd h2 (h1 ▸ lt_irrefl _)
    · exact Prod.ext (le_antisymm h1' h2') h1

/-- Stable descending sort of (column, weight) pairs; the model of the
per-row `(-values).argsort()` selection order. -/
def sortDesc {n : ℕ} (l : List (Fin n × ℝ)) : List (Fin n × ℝ) :=
  l.insertionSort topRel

/-- The entries `(column, weight)` of row `i` of a COO edge list, in storage
order: the row segment that `_select_k_idx_cpu` works on after its sort by
row index. -/
def rowSeg {n : ℕ} (L : List (Fin n × Fin n × ℝ)) (i : Fin n) : List (Fin n × ℝ) :=
  (L.filter (fun e => e.1 = i)).map (fun e => (e.2.1, e.2.2))

/-- The selected `(column, weight)` pairs of row `i`: the first
`min k (out-degree i)` entries of the descending sort of the row segment
(`curr_idx = (-values[...]).argsort()[:k_of_row]`). -/
def topkSlots {n : ℕ} (L : List (Fin n × Fin n × ℝ)) (k : ℕ) (i : Fin n) :
    List (Fin n × ℝ) :=
  (sortDesc (rowSeg L i)).take k

/-- Entry `(i, s)` of the `values` output of
`_sparse_top_k(..., return_sparse=False)` on the CPU path: selected weights,
with the empty slots left at their initial value `0`. -/
def topkVal {n : ℕ} (L : List (Fin n × Fin n × ℝ)) (k : ℕ) (i : Fin n) (s : ℕ) : ℝ :=
  ((topkSlots L k i).map Prod.snd).getD s 0

/-- Entry `(i, s)` of the `indices` output of
`_sparse_top_k(..., return_sparse=False)` on the CPU path: selected column
indices, with the empty slots left at the sentinel `-1`. -/
def topkIdx {n : ℕ} (L : List (Fin n × Fin n × ℝ)) (k : ℕ) (i : Fin n) (s : ℕ) : ℤ :=
  ((topkSlots L k i).map (fun e => (e.1.val : ℤ))).getD s (-1)

/-! ## Definitions: `Chunker` and `chunked_message_and_aggregate` -/

/-- `Chunker.chunk_size = int(math.ceil(n / n_chunks))`. -/
def chunkSize (n n_chunks : ℕ) : ℕ := (n + n_chunks - 1) / n_chunks

/-- `Chunker.lower[c] = chunk * chunk_size`. -/
def chunkLower (n n_chunks c : ℕ) : ℕ := c * chunkSize n n_chunks

/-- `Chunker.upper[c] = (chunk + 1) * chunk_size`, with the final entry
overridden to `n` (`self.upper[-1] = n`). -/
def chunkUpper (n n_chunks c : ℕ) : ℕ :=
  if c = n_chunks - 1 then n else (c + 1) * chunkSize n n_chunks

/-- `torch.utils.checkpoint.checkpoint(fn, *args)`: numerically the plain
call; only the memory/recomputation behaviour differs, which this embedding
does not track. -/
def checkpoint {α β : Type _} (f : α → β) (a : α) : β := f a

/-- `Chunker.chunk(get_run, *input_tensors)`: apply the per-block function to
every `[lower, upper)` block and concatenate the per-block result lists in
order; `requires_grad` selects the checkpointed invocation. -/
def chunkerChunk {V : Type _} (n n_chunks : ℕ) (requires_grad : Bool)
    (get_run : ℕ → ℕ → List V) : List V :=
  ((List.range n_chunks).map fun c =>
    if requires_grad then
      checkpoint (fun p : ℕ × ℕ => get_run p.1 p.2)
        (chunkLower n n_chunks c, chunkUpper n n_chunks c)
    else get_run (chunkLower n n_chunks c) (chunkUpper n n_chunks c)).flatten

/-- Row `i` of the default aggregation
`torch_sparse.matmul(adj_t, x, reduce="sum")`, i.e. of `A @ x`. -/
def matmulRow {n d : ℕ} (A : Fin n → Fin n → ℝ) (x : Fin n → Fin d → ℝ)
    (i : Fin n) : Fin d → ℝ :=
  fun c => ∑ j, A i j * x j c

/-- The list of output rows of `aggregation_function(adj[lower:upper, :], x)`
for the default matmul aggregation: row `i` of the sliced product is row
`lower + i` of the full product (python slicing clamps out-of-range bounds,
modelled by `drop`/`take`). -/
def rowBlock {n d : ℕ} (A : Fin n → Fin n → ℝ) (x : Fin n → Fin d → ℝ)
    (lower upper : ℕ) : List (Fin d → ℝ) :=
  (((List.finRange n).drop lower).take (upper - lower)).map (matmulRow A x)

/-- `chunked_message_and_aggregate(adj_t, x, n_chunks)` for the default
aggregation function, as the list of output rows.  `requires_grad` is the
`adj_t.coo()[-1].requires_grad` test: without gradient tracking the source
returns the unchunked product directly, with it the row-chunked product is
assembled through `Chunker.chunk` and `checkpoint`. -/
def chunked_message_and_aggregate {n d : ℕ} (A : Fin n → Fin n → ℝ)
    (x : Fin n → Fin d → ℝ) (n_chunks : ℕ) (requires_grad : Bool) :
    List (Fin d → ℝ) :=
  if requires_grad then chunkerChunk n n_chunks true (rowBlock A x)
  else (List.finRange n).map (matmulRow A x)

/-! ## Definitions: `partial_distance_matrix` -/

/-- `x[z]` for an integer index coming from a top-k index matrix: valid
indices load the feature row; out-of-range values (only the sentinel `-1`
occurs in the pipeline) give the zero row, which the mask in
`partial_distance_matrix` discards before it can matter. -/
def getFeat {n d : ℕ} (x : Fin n → Fin d → ℝ) (z : ℤ) : Fin d → ℝ :=
  if h : 0 ≤ z ∧ z < n then x ⟨z.toNat, by omega⟩ else fun _ => 0

/-- `partial_distance_matrix(x, partial_idx)` entry `(i, a, b)`.  At this
flattened position the source pairs `idx_row = partial_idx[i, b]` with
`idx_column = partial_idx[i, a]`; pairs containing the sentinel `-1` are
masked to `0` without being computed, and the remaining pairs are put in
canonical order (`idx_row ≤ idx_column` after the symmetry swap), linearised
and deduplicated, so that each unordered pair's distance
`torch.norm(x[min] - x[max])` is computed once. -/
def partialDistanceMatrix {n d k : ℕ} (x : Fin n → Fin d → ℝ)
    (idx : Fin n → Fin k → ℤ) (i : Fin n) (a b : Fin k) : ℝ :=
  if idx i a = -1 ∨ idx i b = -1 then 0
  else Real.sqrt (∑ c, (getFeat x (min (idx i b) (idx i a)) c
                        - getFeat x (max (idx i b) (idx i a)) c) ^ 2)

/-! ## Definitions: `weighted_dimwise_median_cpu` -/

/-- Ascending "smaller value first, ties by ascending node index" order
modelling `torch.sort(x, dim=0)` on one feature column. -/
def colRel {n : ℕ} (a b : Fin n × ℝ) : Prop :=
  a.2 < b.2 ∨ (a.2 = b.2 ∧ a.1 ≤ b.1)

instance colRel_decidable {n : ℕ} : DecidableRel (@colRel n) := fun a b => by
  unfold colRel; infer_instance

instance colRel_total {n : ℕ} : IsTotal (Fin n × ℝ) colRel where
  total a b := by
    rcases lt_trichotomy a.2 b.2 with h | h | h
    · exact Or.inl (Or.inl h)
    · rcases le_total a.1 b.1 with h1 | h1
      · exact Or.inl (Or.inr ⟨h, h1⟩)
      · exact Or.inr (Or.inr ⟨h.symm, h1⟩)
    · exact Or.inr (Or.inl h)

instance colRel_trans {n : ℕ} : IsTrans (Fin n × ℝ) colRel where
  trans a b c hab hbc := by
    rcases hab with h1 | ⟨h1, h1'⟩ <;> rcases hbc with h2 | ⟨h2, h2'⟩
    · exact Or.inl (h1.trans h2)
    · exact Or.inl (h2 ▸ h1)
    · exact Or.inl (h1 ▸ h2)
    · exact Or.inr ⟨h1.trans h2, h1'.trans h2'⟩

instance colRel_antisymm {n : ℕ} : IsAntisymm (Fin n × ℝ) colRel where
  antisymm a b hab hba := by
    rcases hab with h1 | ⟨h1, h1'⟩ <;> rcases hba with h2 | ⟨h2, h2'⟩
    · exact absurd (h1.trans h2) (lt_irrefl _)
    · exact absurd h1 (h2 ▸ lt_irrefl _)
    · exact absurd h2 (h1 ▸ lt_irrefl _)
    · exact Prod.ext (le_antisymm h1' h2') h1

/-- The `(node, value)` pairs of feature column `c` in node order. -/
def colPairs {n d : ℕ} (x : Fin n → Fin d → ℝ) (c : Fin d) : List (Fin n × ℝ) :=
  (List.finRange n).map fun j => (j, x j c)

/-- `x_sorted, index_x = torch.sort(x, dim=0)` for column `c`: the
`(node, value)` pairs of the column in ascending value order. -/
def colSorted {n d : ℕ} (x : Fin n → Fin d → ℝ) (c : Fin d) : List (Fin n × ℝ) :=
  (colPairs x c).insertionSort colRel

/-- The `(node, value)` pair at sorted position `s` of column `c`; its
first component is `index_x[s, c]` and its second is `x_sorted[s, c]`. -/
def colEntry {n d : ℕ} (x : Fin n → Fin d → ℝ) (c : Fin d) (s : Fin n) :
    Fin n × ℝ :=
  (colSorted x c).get ⟨s.val, by
    have h1 : (colSorted x c).length = n := by
      rw [colSorted, (List.perm_insertionSort colRel _).length_eq, colPairs,
        List.length_map, List.length_finRange]
    omega⟩

/-- `cum_sorted_weights[i, s, c]`: the cumulative sum, along the sorted
positions, of the adjacency weights of row `i` taken in column-`c` sorted
node order. -/
def cumWeight {n d : ℕ} (A : Fin n → Fin n → ℝ) (x : Fin n → Fin d → ℝ)
    (i : Fin n) (s : Fin n) (c : Fin d) : ℝ :=
  ∑ t ∈ Finset.Iic s, A i (colEntry x c t).1

/-- `weight_sum_per_node[i, c] = cum_sorted_weights.max(1)[0]`: the maximum
of the cumulative weights of row `i` along column `c`. -/
def weightSum {n d : ℕ} (A : Fin n → Fin n → ℝ) (x : Fin n → Fin d → ℝ)
    (i : Fin n) (c : Fin d) : ℝ :=
  Finset.univ.sup' ⟨i, Finset.mem_univ i⟩ (fun s => cumWeight A x i s c)

/-- `median_element[i, c]`: the number of sorted positions whose cumulative
weight is strictly below half the total (`(cum < total/2).sum(1)`). -/
def medianElement {n d : ℕ} (A : Fin n → Fin n → ℝ) (x : Fin n → Fin d → ℝ)
    (i : Fin n) (c : Fin d) : ℕ :=
  (Finset.univ.filter
    (fun s : Fin n => cumWeight A x i s c < weightSum A x i c / 2)).card

/-- `weighted_dimwise_median_cpu(A, x)` entry `(i, c)`: the value of column
`c` at the selected sorted position, scaled by the row's total weight. -/
def weighted_dimwise_median_cpu {n d : ℕ} (A : Fin n → Fin n → ℝ)
    (x : Fin n → Fin d → ℝ) (i : Fin n) (c : Fin d) : ℝ :=
  weightSum A x i c *
    x (((colSorted x c).map Prod.fst).getD (medianElement A x i c) ⟨0, i.pos⟩) c

/-- Concrete 2×1 feature matrix for the C6 witness. -/
def pdmX : Fin 2 → Fin 1 → ℝ := ![![0], ![3]]

/-- Concrete 2×2 index matrix for the C6 witness: row 0 selects node 1 and
pads with the sentinel, row 1 is fully disconnected. -/
def pdmIdx : Fin 2 → Fin 2 → ℤ := ![![1, -1], ![-1, -1]]

/-- Concrete all-ones 3×3 adjacency for the C5 witness. -/
def onesAdj3 : Fin 3 → Fin 3 → ℝ := fun _ _ => 1

/-- Concrete all-ones 3×2 feature matrix for the C5 witness. -/
def onesFeat3 : Fin 3 → Fin 2 → ℝ := fun _ _ => 1

/-! ## Definitions: the robust mean family -/

/-- `t[~torch.isfinite(t)] = torch.finfo(t.dtype).max`: in the real-number
idealisation a value above `FMAX` corresponds to an overflowed float
(`inf`), which this line maps back to `max`; so the update clamps at
`FMAX`. -/
def clampF (v : ℝ) : ℝ := min v FMAX

/-- `F.softmax(z, dim=-1)`, mathematically: `exp (z a) / ∑ b, exp (z b)`. -/
def softmaxR {k : ℕ} (z : Fin k → ℝ) (a : Fin k) : ℝ :=
  Real.exp (z a) / ∑ b, Real.exp (z b)

/-- `v.argmin()` as a natural number: the first index attaining the minimum
(`torch.argmin` returns the indices of the first minimal value).  For an
empty tensor the set is empty and `sInf` yields `0`; the pipeline never
evaluates that case. -/
def argminIdx {k : ℕ} (v : Fin k → ℝ) : ℕ :=
  sInf {a : ℕ | ∃ ha : a < k, ∀ t, v ⟨a, ha⟩ ≤ v t}

/-- Interpret a natural-number position as a row index (total; out-of-range
positions, which the pipeline never produces, give row 0). -/
def finClamp {n : ℕ} (pos : 0 < n) (a : ℕ) : Fin n :=
  if h : a < n then ⟨a, h⟩ else ⟨0, pos⟩

/-- The masked, weighted distance-sum criterion shared by `weighted_medoid`
and `soft_weighted_medoid`: `distances = A[:, None, :].expand * l2`, with all
entries of the `(i, cand)` slice overwritten by `finfo.max` when
`A[i, cand] == 0` (the mask is applied before the sum over the last axis),
then summed and clamped by the non-finite rewrite. -/
def medoidScore {n d : ℕ} (A : Fin n → Fin n → ℝ) (x : Fin n → Fin d → ℝ)
    (i cand : Fin n) : ℝ :=
  clampF (∑ j, if A i cand = 0 then FMAX
               else A i j * distance_matrix x defaultDistEps cand j)

/-- `weighted_medoid(A, x)` entry `(i, c)`:
`row_sum * x[distances.argmin(-1)]`. -/
def weighted_medoid {n d : ℕ} (A : Fin n → Fin n → ℝ) (x : Fin n → Fin d → ℝ)
    (i : Fin n) (c : Fin d) : ℝ :=
  (∑ j, A i j) * x (finClamp i.pos (argminIdx (medoidScore A x i))) c

/-- `soft_weighted_medoid(A, x, temperature)` entry `(i, c)`:
`row_sum * (F.softmax(-distances / T, dim=-1) @ x)`. -/
def soft_weighted_medoid {n d : ℕ} (A : Fin n → Fin n → ℝ)
    (x : Fin n → Fin d → ℝ) (T : ℝ) (i : Fin n) (c : Fin d) : ℝ :=
  (∑ j, A i j) *
    ∑ cand, softmaxR (fun cd => -(medoidScore A x i cd) / T) cand * x cand c

/-- The full row `(column, weight)` pairs of a dense adjacency row, the
input order of `torch.topk(A_dense, k, dim=1)`. -/
def denseRowPairs {n : ℕ} (A : Fin n → Fin n → ℝ) (i : Fin n) :
    List (Fin n × ℝ) :=
  (List.finRange n).map fun j => (j, A i j)

/-- `topk_a, topk_a_idx = torch.topk(A_dense, k, dim=1)` for row `i`: the
first `k` pairs of the descending sort of the row (ties by column index). -/
def denseTopkSlots {n : ℕ} (A : Fin n → Fin n → ℝ) (k : ℕ) (i : Fin n) :
    List (Fin n × ℝ) :=
  (sortDesc (denseRowPairs A i)).take k

/-- `topk_a[i, s]` (weight of slot `s`); `0` beyond the selection, which for
`k ≤ n` never occurs. -/
def denseTopkVal {n : ℕ} (A : Fin n → Fin n → ℝ) (k : ℕ) (i : Fin n) (s : ℕ) : ℝ :=
  ((denseTopkSlots A k i).map Prod.snd).getD s 0

/-- `topk_a_idx[i, s]` (column of slot `s`); row 0 beyond the selection,
which for `k ≤ n` never occurs. -/
def denseTopkCol {n : ℕ} (A : Fin n → Fin n → ℝ) (k : ℕ) (i : Fin n) (s : ℕ) :
    Fin n :=
  ((denseTopkSlots A k i).map Prod.fst).getD s ⟨0, i.pos⟩

/-- `distances_k[i, a]` of `weighted_medoid_k_neighborhood`:
`(topk_a[:, None, :] * l2[idx, idxᵀ]).sum(-1)`, with entries where
`topk_a == 0` overwritten by `finfo.max` (after the sum), then the
non-finite clamp. -/
def wmkScore {n d : ℕ} (A : Fin n → Fin n → ℝ) (x : Fin n → Fin d → ℝ)
    (k : ℕ) (i : Fin n) (a : Fin k) : ℝ :=
  clampF (if denseTopkVal A k i a.val = 0 then FMAX
          else ∑ b : Fin k, denseTopkVal A k i b.val *
            distance_matrix x defaultDistEps (denseTopkCol A k i a.val)
              (denseTopkCol A k i b.val))

/-- `weighted_medoid_k_neighborhood(A, x, k)` entry `(i, c)`: for `k > n` the
source falls back to `weighted_medoid`; otherwise
`row_sum * x[topk_a_idx[arange(N), distances_k.argmin(-1)]]`. -/
def weighted_medoid_k_neighborhood {n d : ℕ} (A : Fin n → Fin n → ℝ)
    (x : Fin n → Fin d → ℝ) (k : ℕ) (i : Fin n) (c : Fin d) : ℝ :=
  if n < k then weighted_medoid A x i c
  else (∑ j, A i j) * x (denseTopkCol A k i (argminIdx (wmkScore A x k i))) c

/-! ## Definitions: soft weighted medoid k-neighborhood, dense CPU path -/

/-- `distances_k[i, a]` of `dense_cpu_soft_weighted_medoid_k_neighborhood`:
as in `wmkScore` but — per the commented-out line in the source — without
the `topk_a == 0` masking, only the non-finite clamp.  `epsg` is the
`_distance_matrix` guard (the source fixes it to `defaultDistEps`); it is a
parameter here so that the exact-arithmetic comparison with the sparse path
can set it to `0`. -/
def denseSwmkScore {n d : ℕ} (A : Fin n → Fin n → ℝ) (x : Fin n → Fin d → ℝ)
    (k : ℕ) (epsg : ℝ) (i : Fin n) (a : Fin k) : ℝ :=
  clampF (∑ b : Fin k, denseTopkVal A k i b.val *
    distance_matrix x epsg (denseTopkCol A k i a.val) (denseTopkCol A k i b.val))

/-- `topk_weights[i, j]` right after the scatter
`topk_weights[arange(n)[:, None], topk_a_idx] = softmax(-distances_k / T)`
(and the `*= topk_a` correction when enabled): modelled as a sum over slots,
which agrees with the positional assignment because the `torch.topk` columns
of one row are pairwise distinct. -/
def denseScatter {n d : ℕ} (A : Fin n → Fin n → ℝ) (x : Fin n → Fin d → ℝ)
    (k : ℕ) (T : ℝ) (corr : Bool) (epsg : ℝ) (i j : Fin n) : ℝ :=
  ∑ a : Fin k, if denseTopkCol A k i a.val = j then
      (if corr then
        softmaxR (fun b => -(denseSwmkScore A x k epsg i b) / T) a *
          denseTopkVal A k i a.val
       else softmaxR (fun b => -(denseSwmkScore A x k epsg i b) / T) a)
    else 0

/-- `topk_weights[i, j]` after the correction renormalisation
`topk_weights /= topk_weights.sum(-1)[:, None] + eps` (no-op when
`with_weight_correction` is off). -/
def denseTopkWeights {n d : ℕ} (A : Fin n → Fin n → ℝ) (x : Fin n → Fin d → ℝ)
    (k : ℕ) (T : ℝ) (corr : Bool) (eps epsg : ℝ) (i j : Fin n) : ℝ :=
  if corr then
    denseScatter A x k T corr epsg i j /
      ((∑ j', denseScatter A x k T corr epsg i j') + eps)
  else denseScatter A x k T corr epsg i j

/-- `dense_cpu_soft_weighted_medoid_k_neighborhood(A, x, k, T, corr, eps)`
entry `(i, c)`: `row_sum * (topk_weights @ x)`. -/
def dense_cpu_soft_weighted_medoid_k_neighborhood {n d : ℕ}
    (A : Fin n → Fin n → ℝ) (x : Fin n → Fin d → ℝ) (k : ℕ) (T : ℝ)
    (corr : Bool) (eps epsg : ℝ) (i : Fin n) (c : Fin d) : ℝ :=
  (∑ j, A i j) * ∑ j, denseTopkWeights A x k T corr eps epsg i j * x j c

/-! ## Definitions: soft weighted medoid k-neighborhood, sparse path -/

/-- The `(column, weight)` pairs of the stored (nonzero) entries of row `i`
of a dense matrix, in ascending column order. -/
def nzPairs {n : ℕ} (A : Fin n → Fin n → ℝ) (i : Fin n) : List (Fin n × ℝ) :=
  (List.finRange n).filterMap fun j =>
    if A i j ≠ 0 then some (j, A i j) else none

/-- `A.coo()` of a (coalesced) sparse tensor holding the nonzeros of the
dense matrix `A`: row-major, ascending column within a row. -/
def cooOfDense {n : ℕ} (A : Fin n → Fin n → ℝ) : List (Fin n × Fin n × ℝ) :=
  (List.finRange n).flatMap fun i =>
    (List.finRange n).filterMap fun j =>
      if A i j ≠ 0 then some (i, j, A i j) else none

/-- The missing-row patch of `soft_weighted_medoid_k_neighborhood`: every row
without outgoing edges gets one zero-weight placeholder entry at column 0
appended, so that no row disappears from the sparse format. -/
def patchedCoo {n : ℕ} (A : Fin n → Fin n → ℝ) : List (Fin n × Fin n × ℝ) :=
  cooOfDense A ++
    ((List.finRange n).flatMap fun i =>
      if ∀ j, A i j = 0 then [(i, ⟨0, i.pos⟩, (0 : ℝ))] else [])

/-- `top_k_weights[i, s]` of the sparse path. -/
def sparseVal {n : ℕ} (A : Fin n → Fin n → ℝ) (k : ℕ) (i : Fin n) (s : Fin k) : ℝ :=
  topkVal (patchedCoo A) k i s.val

/-- `top_k_idx[i, s]` of the sparse path (sentinel `-1` on empty slots). -/
def sparseIdx {n : ℕ} (A : Fin n → Fin n → ℝ) (k : ℕ) (i : Fin n) (s : Fin k) : ℤ :=
  topkIdx (patchedCoo A) k i s.val

/-- `distances_top_k[i, a]` of the sparse path:
`(top_k_weights[:, None, :] * partial_distances).sum(-1)`, then
`distances_top_k[top_k_idx == -1] = finfo.max`, then the non-finite
clamp. -/
def sparseSwmkScore {n d : ℕ} (A : Fin n → Fin n → ℝ) (x : Fin n → Fin d → ℝ)
    (k : ℕ) (i : Fin n) (a : Fin k) : ℝ :=
  clampF (if sparseIdx A k i a = -1 then FMAX
          else ∑ b, sparseVal A k i b * partialDistanceMatrix x (sparseIdx A k) i a b)

/-- `reliable_adj_values[i, a]`: the softmax over the top-k neighbourhood,
re-weighted by the original weights and renormalised (`+ eps`) when
`with_weight_correction` is enabled. -/
def sparseReliable {n d : ℕ} (A : Fin n → Fin n → ℝ) (x : Fin n → Fin d → ℝ)
    (k : ℕ) (T : ℝ) (corr : Bool) (eps : ℝ) (i : Fin n) (a : Fin k) : ℝ :=
  if corr then
    softmaxR (fun b => -(sparseSwmkScore A x k i b) / T) a * sparseVal A k i a /
      ((∑ b, softmaxR (fun b' => -(sparseSwmkScore A x k i b') / T) b *
        sparseVal A k i b) + eps)
  else softmaxR (fun b => -(sparseSwmkScore A x k i b) / T) a

/-- `a_row_sum[i]`: the scatter-sum of the (patched) stored values of
row `i`. -/
def sparseRowSum {n : ℕ} (A : Fin n → Fin n → ℝ) (i : Fin n) : ℝ :=
  ((rowSeg (patchedCoo A) i).map Prod.snd).sum

/-- The sparse branch of `soft_weighted_medoid_k_neighborhood` (the
`return_sparse=False` top-k, partial distances, masked softmax, optional
weight correction, sentinel masking and `spmm`), entry `(i, c)`:
`a_row_sum * spmm(reliable_adj, x)`. -/
def soft_weighted_medoid_k_neighborhood_sparse {n d : ℕ}
    (A : Fin n → Fin n → ℝ) (x : Fin n → Fin d → ℝ) (k : ℕ) (T : ℝ)
    (corr : Bool) (eps : ℝ) (i : Fin n) (c : Fin d) : ℝ :=
  sparseRowSum A i *
    ∑ a : Fin k, if sparseIdx A k i a = -1 then 0
      else sparseReliable A x k T corr eps i a * getFeat x (sparseIdx A k i a) c

/-- `soft_weighted_medoid_k_neighborhood(A, x, k, T, corr, threshold, eps)`:
the `k > n` guard (`NotImplementedError` with weight correction, fallback to
`soft_weighted_medoid` without), then the dense-vs-sparse dispatch by the
CPU size threshold. -/
def soft_weighted_medoid_k_neighborhood {n d : ℕ} (A : Fin n → Fin n → ℝ)
    (x : Fin n → Fin d → ℝ) (k : ℕ) (T : ℝ) (corr : Bool) (threshold : ℕ)
    (eps : ℝ) : Except String (Fin n → Fin d → ℝ) :=
  if n < k then
    if corr then
      Except.error "k less than n and with_weight_correction is not implemented."
    else Except.ok (soft_weighted_medoid A x T)
  else if n < threshold then
    Except.ok (dense_cpu_soft_weighted_medoid_k_neighborhood A x k T corr eps
      defaultDistEps)
  else Except.ok (soft_weighted_medoid_k_neighborhood_sparse A x k T corr eps)

/-! ## Definitions: `soft_median` -/

/-- Modelled from the spec: `custom_cuda_kernels.dimmedian_idx(x, A)` — the
accelerated per-dimension weighted-median node selection, which is not part
of the python source (it lives in the CUDA extension).  The spec (§4.3)
defines it by the same cumulative-weight-crossing-half rule as the CPU
reference `weighted_dimwise_median_cpu`, whose index selection is reused
here. -/
def dimmedianIdx {n d : ℕ} (A : Fin n → Fin n → ℝ) (x : Fin n → Fin d → ℝ)
    (i : Fin n) (c : Fin d) : Fin n :=
  ((colSorted x c).map Prod.fst).getD (medianElement A x i c) ⟨0, i.pos⟩

/-- The per-edge distance of `soft_median` at the default `p = 2`:
`torch.norm(x_median[row] - x[col]) / d ** (1/p)`. -/
def softMedianDist {n d : ℕ} (A : Fin n → Fin n → ℝ) (x : Fin n → Fin d → ℝ)
    (i j : Fin n) : ℝ :=
  Real.sqrt (∑ c, (x (dimmedianIdx A x i c) c - x j c) ^ 2) / Real.sqrt d

/-- `soft_median(A, x, temperature)` entry `(i, c)`: the stored edges of row
`i` are its nonzero entries; `scatter_softmax` of the negated distances over
them, re-weighted by the edge weights, renormalised to the original row
weight sum, and applied to `x` through `spmm`. -/
def soft_median {n d : ℕ} (A : Fin n → Fin n → ℝ) (x : Fin n → Fin d → ℝ)
    (T : ℝ) (i : Fin n) (c : Fin d) : ℝ :=
  ∑ j ∈ Finset.univ.filter (fun j => A i j ≠ 0),
    (Real.exp (-(softMedianDist A x i j) / T) /
        (∑ j' ∈ Finset.univ.filter (fun j' => A i j' ≠ 0),
          Real.exp (-(softMedianDist A x i j') / T)) * A i j /
      (∑ j' ∈ Finset.univ.filter (fun j' => A i j' ≠ 0),
        Real.exp (-(softMedianDist A x i j') / T) /
          (∑ j'' ∈ Finset.univ.filter (fun j'' => A i j'' ≠ 0),
            Real.exp (-(softMedianDist A x i j'') / T)) * A i j') *
      (∑ j', A i j')) * x j c

/-- Concrete 3×3 adjacency for the C1 counterexample: row 0 has out-degree
2, smaller than `k = 3`. -/
def cexAdj3 : Fin 3 → Fin 3 → ℝ := ![![0, 1, 1], ![1, 0, 1], ![1, 1, 0]]

/-- Concrete 3×1 feature matrix for the C1 counterexample: node 0 sits at 1,
its two neighbours at 0. -/
def cexFeat3 : Fin 3 → Fin 1 → ℝ := ![![1], ![0], ![0]]

/-- Concrete 1×1 adjacency for the C7 witness. -/
def oneAdj1 : Fin 1 → Fin 1 → ℝ := ![![1]]

/-- Concrete all-zero 1×1 feature matrix for the C7 witness. -/
def zeroFeat1 : Fin 1 → Fin 1 → ℝ := fun _ _ => 0

/-- Concrete 2×2 identity-pattern adjacency for the C8 witness. -/
def medAdj2 : Fin 2 → Fin 2 → ℝ := ![![1, 0], ![0, 1]]

/-- Concrete all-zero 2×1 feature matrix for the C8 witness. -/
def medFeat2 : Fin 2 → Fin 1 → ℝ := fun _ _ => 0

/-- The spec's §8 disconnected-node regression adjacency: 4 nodes, row 3 all
zero. -/
def discAdj4 : Fin 4 → Fin 4 → ℝ :=
  ![![0.5, 0.3, 0, 0], ![0.3, 0.2, 0, 0], ![0, 0, 0.9, 0], ![0, 0, 0, 0]]

/-- Arbitrary finite 4×3 feature matrix for the C2 witness. -/
def discFeat4 : Fin 4 → Fin 3 → ℝ :=
  ![![1, 2, 3], ![4, 5, 6], ![7, 8, 9], ![10, 11, 12]]

/-- The spec's §8 top-k example adjacency as a dense matrix. -/
def specTopkAdj : Fin 4 → Fin 4 → ℝ :=
  ![![0.5, 0.3, 0, 0.4], ![0.3, 0.2, 0, 0], ![0, 0, 0.9, 0.3], ![0.4, 0, 0.4, 0.4]]

/-- A concrete 4×1 feature matrix for the C9 witness. -/
def dimFeat4 : Fin 4 → Fin 1 → ℝ := ![![1], ![2], ![3], ![4]]

/-- The COO edge list of the concrete 4×4 adjacency used in the spec's top-k
example (§8), in row-major storage order. -/
def specTopkExample : List (Fin 4 × Fin 4 × ℝ) :=
  [(0, 0, 0.5), (0, 1, 0.3), (0, 3, 0.4),
   (1, 0, 0.3), (1, 1, 0.2),
   (2, 2, 0.9), (2, 3, 0.3),
   (3, 0, 0.4), (3, 2, 0.4), (3, 3, 0.4)]

/-! ## Theorems -/

/-- The quadratic expansion `‖a‖² + ‖b‖² - 2⟨a,b⟩ = ‖a - b‖²` used by
`_distance_matrix`. -/
lemma sqnorm_expansion {n d : ℕ} (x : Fin n → Fin d → ℝ) (i j : Fin n) :
    sqnorm x i + sqnorm x j - 2 * inprod x i j = ∑ c, (x i c - x j c) ^ 2 := by
  simp only [sqnorm, inprod, Finset.mul_sum]
  rw [← Finset.sum_add_distrib, ← Finset.sum_sub_distrib]
  exact Finset.sum_congr rfl fun c _ => by ring

lemma sum_sq_nonneg {d : ℕ} (f : Fin d → ℝ) : 0 ≤ ∑ c, (f c) ^ 2 :=
  Finset.sum_nonneg fun c _ => sq_nonneg _

lemma FMAX_pos : 0 < FMAX := by norm_num [FMAX]

lemma machineEps_pos : 0 < machineEps := by norm_num [machineEps]

lemma topRel_snd_le {n : ℕ} {a b : Fin n × ℝ} (h : topRel a b) : b.2 ≤ a.2 := by
  rcases h with h | ⟨h, _⟩
  · exact h.le
  · exact h.ge

lemma sortDesc_sorted {n : ℕ} (l : List (Fin n × ℝ)) :
    (sortDesc l).Sorted topRel :=
  List.sorted_insertionSort topRel l

lemma sortDesc_perm {n : ℕ} (l : List (Fin n × ℝ)) : List.Perm (sortDesc l) l :=
  List.perm_insertionSort topRel l

lemma sortDesc_length {n : ℕ} (l : List (Fin n × ℝ)) :
    (sortDesc l).length = l.length :=
  (sortDesc_perm l).length_eq

lemma topkSlots_length {n : ℕ} (L : List (Fin n × Fin n × ℝ)) (k : ℕ) (i : Fin n) :
    (topkSlots L k i).length = min k (rowSeg L i).length := by
  rw [topkSlots, List.length_take, sortDesc_length]

/-- On a valid slot, `topkVal` is the weight of the `s`-th entry of the
descending sort of the row segment. -/
lemma topkVal_lt {n : ℕ} (L : List (Fin n × Fin n × ℝ)) (k : ℕ) (i : Fin n)
    (s : ℕ) (hs : s < min k (rowSeg L i).length) :
    ∀ h : s < (sortDesc (rowSeg L i)).length,
      topkVal L k i s = ((sortDesc (rowSeg L i)).get ⟨s, h⟩).2 := by
  intro h
  have hlen : s < ((topkSlots L k i).map Prod.snd).length := by
    rw [List.length_map, topkSlots_length]; exact hs
  rw [topkVal, List.getD_eq_getElem _ _ hlen]
  simp [topkSlots, List.get_eq_getElem, List.getElem_take]

lemma topkIdx_lt {n : ℕ} (L : List (Fin n × Fin n × ℝ)) (k : ℕ) (i : Fin n)
    (s : ℕ) (hs : s < min k (rowSeg L i).length) :
    ∀ h : s < (sortDesc (rowSeg L i)).length,
      topkIdx L k i s = (((sortDesc (rowSeg L i)).get ⟨s, h⟩).1.val : ℤ) := by
  intro h
  have hlen : s < ((topkSlots L k i).map (fun e => (e.1.val : ℤ))).length := by
    rw [List.length_map, topkSlots_length]; exact hs
  rw [topkIdx, List.getD_eq_getElem _ _ hlen]
  simp [topkSlots, List.get_eq_getElem, List.getElem_take]

/-- C3: for every row of the COO input, the CPU path of `_sparse_top_k` with
`return_sparse=False` returns exactly `min k (out-degree)` selected entries,
sorted by descending weight; every rejected entry of the row weighs at most
every selected one; the remaining slots carry sentinel index `-1` and weight
`0`, valid slots never carry the sentinel; and re-running on the same input
yields the same selection. -/
theorem sparse_top_k_slots_spec {n : ℕ} (L : List (Fin n × Fin n × ℝ)) (k : ℕ)
    (i : Fin n) :
    (topkSlots L k i).length = min k (rowSeg L i).length ∧
    (∀ s t : ℕ, s ≤ t → t < min k (rowSeg L i).length →
      topkVal L k i t ≤ topkVal L k i s) ∧
    List.Perm (topkSlots L k i ++ (sortDesc (rowSeg L i)).drop k) (rowSeg L i) ∧
    (∀ e ∈ (sortDesc (rowSeg L i)).drop k, ∀ s : ℕ,
      s < min k (rowSeg L i).length → e.2 ≤ topkVal L k i s) ∧
    (∀ s : ℕ, min k (rowSeg L i).length ≤ s →
      topkVal L k i s = 0 ∧ topkIdx L k i s = -1) ∧
    (∀ s : ℕ, s < min k (rowSeg L i).length → 0 ≤ topkIdx L k i s) ∧
    (topkVal L k i = topkVal L k i ∧ topkIdx L k i = topkIdx L k i) := by
  have hsortlen : (sortDesc (rowSeg L i)).length = (rowSeg L i).length :=
    sortDesc_length _
  refine ⟨topkSlots_length L k i, ?_, ?_, ?_, ?_, ?_, rfl, rfl⟩
  · intro s t hst ht
    have hs := lt_of_le_of_lt hst ht
    have hs' : s < (sortDesc (rowSeg L i)).length := by
      rw [hsortlen]; exact lt_of_lt_of_le hs (min_le_right _ _)
    have ht' : t < (sortDesc (rowSeg L i)).length := by
      rw [hsortlen]; exact lt_of_lt_of_le ht (min_le_right _ _)
    rw [topkVal_lt L k i s hs hs', topkVal_lt L k i t ht ht']
    rcases lt_or_eq_of_le hst with h | h
    · exact topRel_snd_le ((sortDesc_sorted (rowSeg L i)).rel_get_of_lt h)
    · subst h; exact le_refl _
  · rw [topkSlots, List.take_append_drop]
    exact sortDesc_perm _
  · intro e he s hs
    have hs' : s < (sortDesc (rowSeg L i)).length := by
      rw [hsortlen]; exact lt_of_lt_of_le hs (min_le_right _ _)
    rw [topkVal_lt L k i s hs hs']
    obtain ⟨j, hj⟩ := List.get_of_mem he
    have hjlen : k + j.val < (sortDesc (rowSeg L i)).length := by
      have := j.isLt
      simp only [List.length_drop] at this
      omega
    have hje : e = (sortDesc (rowSeg L i)).get ⟨k + j.val, hjlen⟩ := by
      rw [← hj]
      simp [List.get_eq_getElem, List.getElem_drop]
    rw [hje]
    refine topRel_snd_le ((sortDesc_sorted (rowSeg L i)).rel_get_of_lt ?_)
    have : s < k := lt_of_lt_of_le hs (min_le_left _ _)
    simp only [Fin.mk_lt_mk]
    omega
  · intro s hsge
    constructor
    · apply List.getD_eq_default
      rw [List.length_map, topkSlots_length]; exact hsge
    · apply List.getD_eq_default
      rw [List.length_map, topkSlots_length]; exact hsge
  · intro s hs
    have hs' : s < (sortDesc (rowSeg L i)).length := by
      rw [hsortlen]; exact lt_of_lt_of_le hs (min_le_right _ _)
    rw [topkIdx_lt L k i s hs hs']
    exact Int.ofNat_nonneg _

/-- Witness for C3 at the spec's §8 concrete 4×4 example with `k = 2`:
row 0 has out-degree 3, so both slots are valid and the slot weights are in
descending order with non-sentinel indices. -/
theorem sparse_top_k_slots_spec_witness :
    ((0 : ℕ) ≤ 1 ∧ 1 < min 2 (rowSeg specTopkExample (0 : Fin 4)).length) ∧
    topkVal specTopkExample 2 0 1 ≤ topkVal specTopkExample 2 0 0 ∧
    0 ≤ topkIdx specTopkExample 2 0 1 := by
  have hlen : (rowSeg specTopkExample (0 : Fin 4)).length = 3 := by
    simp [rowSeg, specTopkExample]
  refine ⟨⟨Nat.zero_le 1, by rw [hlen]; norm_num⟩, ?_, ?_⟩
  · exact (sparse_top_k_slots_spec specTopkExample 2 0).2.1 0 1 (by norm_num)
      (by rw [hlen]; norm_num)
  · exact (sparse_top_k_slots_spec specTopkExample 2 0).2.2.2.2.2.1 1 (by rw [hlen]; norm_num)

/-- C10: with a positive guard `eps`, every entry of `_distance_matrix` is
strictly positive, the diagonal entry equals `sqrt eps` (not `0`), and every
entry strictly exceeds the true Euclidean distance, so the result is never
exactly the true distance matrix. -/
theorem distance_matrix_positive_guarded {n d : ℕ} (x : Fin n → Fin d → ℝ)
    (eps : ℝ) (heps : 0 < eps) (i j : Fin n) :
    0 < distance_matrix x eps i j ∧
    distance_matrix x eps i i = Real.sqrt eps ∧
    dist2 x i j < distance_matrix x eps i j := by
  have habs : |sqnorm x i + sqnorm x j - 2 * inprod x i j|
      = ∑ c, (x i c - x j c) ^ 2 := by
    rw [sqnorm_expansion]
    exact abs_of_nonneg (sum_sq_nonneg _)
  refine ⟨?_, ?_, ?_⟩
  · apply Real.sqrt_pos.mpr
    rw [habs]
    have := sum_sq_nonneg (fun c => x i c - x j c)
    linarith
  · have hz : sqnorm x i + sqnorm x i - 2 * inprod x i i = 0 := by
      rw [sqnorm_expansion]
      simp
    unfold distance_matrix
    rw [hz]
    simp
  · unfold distance_matrix dist2
    rw [habs]
    apply Real.sqrt_lt_sqrt (sum_sq_nonneg _)
    linarith

/-- Witness for C10 at a concrete input: the all-zero 1×1 feature matrix with
the default guard value. -/
theorem distance_matrix_positive_guarded_witness :
    0 < defaultDistEps ∧
      (0 < distance_matrix zeroFeat defaultDistEps 0 0 ∧
       distance_matrix zeroFeat defaultDistEps 0 0 = Real.sqrt defaultDistEps ∧
       dist2 zeroFeat 0 0 < distance_matrix zeroFeat defaultDistEps 0 0) :=
  ⟨by norm_num [defaultDistEps, machineEps],
   distance_matrix_positive_guarded zeroFeat defaultDistEps
     (by norm_num [defaultDistEps, machineEps]) 0 0⟩

lemma chunkSize_mul_ge (n c : ℕ) (hc : 1 ≤ c) : n ≤ c * chunkSize n c := by
  unfold chunkSize
  rcases Nat.eq_zero_or_pos n with rfl | hn
  · simp
  have h1 := Nat.div_add_mod (n + c - 1) c
  have h2 : (n + c - 1) % c < c := Nat.mod_lt _ hc
  omega

/-- The `[lower, upper)` blocks of the `Chunker` tile the row range: taking
the blocks from chunk `j` onwards and concatenating recovers the list from
row `j * chunk_size` onwards. -/
lemma chunk_blocks_cover {α : Type _} (l : List α) (N nch : ℕ)
    (hN : l.length = N) (hc : 1 ≤ nch) :
    ∀ m j, j + m = nch →
      ((List.range' j m).map fun c =>
        (l.drop (chunkLower N nch c)).take
          (chunkUpper N nch c - chunkLower N nch c)).flatten
        = l.drop (j * chunkSize N nch) := by
  have hlen : l.length ≤ nch * chunkSize N nch := by
    rw [hN]; exact chunkSize_mul_ge N nch hc
  intro m
  induction m with
  | zero =>
    intro j hj
    have hj' : j = nch := by omega
    subst hj'
    rw [List.range']
    symm
    simp only [List.map_nil, List.flatten_nil]
    exact List.drop_eq_nil_of_le hlen
  | succ m ih =>
    intro j hj
    rw [List.range'_succ, List.map_cons, List.flatten_cons, ih (j + 1) (by omega)]
    unfold chunkLower chunkUpper
    by_cases hlast : j = nch - 1
    · have hj1 : j + 1 = nch := by omega
      rw [if_pos hlast]
      have hdrop : l.drop ((j + 1) * chunkSize N nch) = [] := by
        apply List.drop_eq_nil_of_le
        calc l.length ≤ nch * chunkSize N nch := hlen
          _ = (j + 1) * chunkSize N nch := by rw [hj1]
      rw [hdrop, List.append_nil]
      apply List.take_of_length_le
      rw [List.length_drop, hN]
    · rw [if_neg hlast]
      have harith : (j + 1) * chunkSize N nch - j * chunkSize N nch
          = chunkSize N nch := by
        have : (j + 1) * chunkSize N nch = j * chunkSize N nch + chunkSize N nch := by
          ring
        omega
      rw [harith]
      have hdd : l.drop ((j + 1) * chunkSize N nch)
          = (l.drop (j * chunkSize N nch)).drop (chunkSize N nch) := by
        rw [List.drop_drop]
        congr 1
        ring
      rw [hdd, List.take_append_drop]

/-- C5: for `n_chunks ≥ 1` the `Chunker` splits `[0, n)` into contiguous row
blocks (`ceil(n / n_chunks)`-sized, the last one clamped to `n`), applies the
per-block function and concatenates preserving row order, so that
`chunked_message_and_aggregate` equals the unchunked default aggregation
`A @ x` with and without gradient tracking; and the checkpointed invocation
returns exactly what the direct invocation returns, for every per-block
function. -/
theorem chunked_message_and_aggregate_eq_unchunked {n d : ℕ}
    (A : Fin n → Fin n → ℝ) (x : Fin n → Fin d → ℝ) (n_chunks : ℕ)
    (requires_grad : Bool) (hc : 1 ≤ n_chunks) :
    chunked_message_and_aggregate A x n_chunks requires_grad
      = (List.finRange n).map (matmulRow A x) ∧
    (∀ g : ℕ → ℕ → List (Fin d → ℝ),
      chunkerChunk n n_chunks true g = chunkerChunk n n_chunks false g) := by
  constructor
  · cases requires_grad with
    | false => rfl
    | true =>
      show chunkerChunk n n_chunks true (rowBlock A x) = _
      unfold chunkerChunk checkpoint rowBlock
      simp only [if_true]
      have hcover : ((List.range n_chunks).map fun c =>
          ((List.finRange n).drop (chunkLower n n_chunks c)).take
            (chunkUpper n n_chunks c - chunkLower n n_chunks c)).flatten
          = List.finRange n := by
        have := chunk_blocks_cover (List.finRange n) n n_chunks
          (List.length_finRange n) hc n_chunks 0 (by omega)
        rw [Nat.zero_mul, List.drop_zero] at this
        rw [List.range_eq_range']
        exact this
      conv_rhs => rw [← hcover, List.map_flatten, List.map_map]
      rfl
  · intro g
    simp [chunkerChunk, checkpoint]

/-- Witness for C5: a concrete 3-node, 2-chunk instance with gradient
tracking enabled. -/
theorem chunked_message_and_aggregate_eq_unchunked_witness :
    1 ≤ 2 ∧
      (chunked_message_and_aggregate onesAdj3 onesFeat3 2 true
        = (List.finRange 3).map (matmulRow onesAdj3 onesFeat3)) :=
  ⟨by norm_num,
   (chunked_message_and_aggregate_eq_unchunked onesAdj3 onesFeat3 2 true
     (by norm_num)).1⟩

lemma getFeat_coe {n d : ℕ} (x : Fin n → Fin d → ℝ) (j : Fin n) :
    getFeat x (j.val : ℤ) = x j := by
  unfold getFeat
  rw [dif_pos ⟨Int.ofNat_nonneg _, by exact_mod_cast j.isLt⟩]
  exact congrArg x (Fin.ext (Int.toNat_ofNat _))

/-- C6: `partial_distance_matrix` returns the Euclidean distance between the
two indexed feature rows whenever both indices are valid, exactly `0` when
either index is the sentinel `-1`, is symmetric in the two slot positions,
and is total (in particular defined on rows holding only sentinels). -/
theorem partial_distance_matrix_spec {n d k : ℕ} (x : Fin n → Fin d → ℝ)
    (idx : Fin n → Fin k → ℤ) (i : Fin n) (a b : Fin k) :
    (∀ ja jb : Fin n, idx i a = (ja.val : ℤ) → idx i b = (jb.val : ℤ) →
      partialDistanceMatrix x idx i a b = dist2 x ja jb) ∧
    (idx i a = -1 ∨ idx i b = -1 → partialDistanceMatrix x idx i a b = 0) ∧
    partialDistanceMatrix x idx i a b = partialDistanceMatrix x idx i b a ∧
    ((∀ s : Fin k, idx i s = -1) → partialDistanceMatrix x idx i a b = 0) := by
  refine ⟨?_, ?_, ?_, ?_⟩
  · intro ja jb hja hjb
    have hna : ¬(idx i a = -1 ∨ idx i b = -1) := by
      rw [hja, hjb]
      push_neg
      constructor <;> omega
    rw [partialDistanceMatrix, if_neg hna, hja, hjb, dist2]
    rcases le_total ((jb.val : ℤ)) ((ja.val : ℤ)) with h | h
    · rw [min_eq_left h, max_eq_right h, getFeat_coe, getFeat_coe]
      congr 1
      exact Finset.sum_congr rfl fun c _ => by ring
    · rw [min_eq_right h, max_eq_left h, getFeat_coe, getFeat_coe]
  · intro h
    rw [partialDistanceMatrix, if_pos h]
  · unfold partialDistanceMatrix
    rw [min_comm, max_comm]
    exact if_congr or_comm rfl rfl
  · intro h
    rw [partialDistanceMatrix, if_pos (Or.inl (h a))]

/-- Witness for C6 at a concrete input: a valid pair gives the true distance,
a sentinel pair gives `0`, and a fully disconnected row is handled. -/
theorem partial_distance_matrix_spec_witness :
    (pdmIdx 0 0 = ((1 : Fin 2).val : ℤ) ∧
      partialDistanceMatrix pdmX pdmIdx 0 0 0 = dist2 pdmX 1 1) ∧
    (pdmIdx 0 1 = -1 ∧ partialDistanceMatrix pdmX pdmIdx 0 0 1 = 0) ∧
    ((∀ s : Fin 2, pdmIdx 1 s = -1) ∧ partialDistanceMatrix pdmX pdmIdx 1 0 1 = 0) := by
  have h1 : pdmIdx 0 0 = ((1 : Fin 2).val : ℤ) := by decide
  have h2 : pdmIdx 0 1 = -1 := by decide
  have h3 : ∀ s : Fin 2, pdmIdx 1 s = -1 := by decide
  exact ⟨⟨h1, (partial_distance_matrix_spec pdmX pdmIdx 0 0 0).1 1 1 h1 h1⟩,
         ⟨h2, (partial_distance_matrix_spec pdmX pdmIdx 0 0 1).2.1 (Or.inr h2)⟩,
         ⟨h3, (partial_distance_matrix_spec pdmX pdmIdx 1 0 1).2.2.2 h3⟩⟩

lemma colSorted_length {n d : ℕ} (x : Fin n → Fin d → ℝ) (c : Fin d) :
    (colSorted x c).length = n := by
  rw [colSorted, (List.perm_insertionSort colRel _).length_eq, colPairs,
    List.length_map, List.length_finRange]

lemma colSorted_perm {n d : ℕ} (x : Fin n → Fin d → ℝ) (c : Fin d) :
    List.Perm (colSorted x c) (colPairs x c) :=
  List.perm_insertionSort colRel _

lemma colSorted_sorted {n d : ℕ} (x : Fin n → Fin d → ℝ) (c : Fin d) :
    (colSorted x c).Sorted colRel :=
  List.sorted_insertionSort colRel _

lemma colEntry_snd {n d : ℕ} (x : Fin n → Fin d → ℝ) (c : Fin d) (s : Fin n) :
    (colEntry x c s).2 = x (colEntry x c s).1 c := by
  have hmem : colEntry x c s ∈ colPairs x c :=
    (colSorted_perm x c).subset (List.get_mem _ _ _)
  rw [colPairs, List.mem_map] at hmem
  obtain ⟨j, _, hj⟩ := hmem
  rw [← hj]

/-- Summing any function of the sorted node order equals summing it in node
order: `index_x[·, c]` is a permutation of the nodes. -/
lemma colEntry_fst_sum {n d : ℕ} (x : Fin n → Fin d → ℝ) (c : Fin d)
    (f : Fin n → ℝ) :
    ∑ t, f (colEntry x c t).1 = ∑ j, f j := by
  have h1 : (List.ofFn fun t : Fin n => f (colEntry x c t).1)
      = ((colSorted x c).map Prod.fst).map f := by
    apply List.ext_getElem
    · simp [colSorted_length]
    · intro t h1 h2
      simp only [List.getElem_ofFn, List.getElem_map]
      rfl
  have h2 : (colPairs x c).map Prod.fst = List.finRange n := by
    apply List.ext_getElem
    · simp [colPairs]
    · intro t ht1 ht2
      simp [colPairs]
  calc ∑ t, f (colEntry x c t).1
      = (List.ofFn fun t : Fin n => f (colEntry x c t).1).sum := by
        rw [List.sum_ofFn]
    _ = (((colSorted x c).map Prod.fst).map f).sum := by rw [h1]
    _ = (((colPairs x c).map Prod.fst).map f).sum :=
        (((colSorted_perm x c).map Prod.fst).map f).sum_eq
    _ = ((List.finRange n).map f).sum := by rw [h2]
    _ = ∑ j, f j := by rw [← List.ofFn_eq_map, List.sum_ofFn]

lemma cumWeight_mono {n d : ℕ} (A : Fin n → Fin n → ℝ) (x : Fin n → Fin d → ℝ)
    (hA : ∀ i j, 0 ≤ A i j) (i : Fin n) (c : Fin d) {s s' : Fin n}
    (h : s ≤ s') : cumWeight A x i s c ≤ cumWeight A x i s' c :=
  Finset.sum_le_sum_of_subset_of_nonneg (Finset.Iic_subset_Iic.mpr h)
    (fun t _ _ => hA i (colEntry x c t).1)

/-- The maximum cumulative weight is attained at the final sorted position
and equals the row's total weight. -/
lemma weightSum_eq_rowsum {n d : ℕ} (A : Fin n → Fin n → ℝ)
    (x : Fin n → Fin d → ℝ) (hA : ∀ i j, 0 ≤ A i j) (i : Fin n) (c : Fin d) :
    weightSum A x i c = ∑ j, A i j := by
  set T : Fin n := ⟨n - 1, by have := i.pos; omega⟩ with hTdef
  have hIic : Finset.Iic T = Finset.univ := by
    ext t
    simp only [Finset.mem_Iic, Finset.mem_univ, iff_true]
    show t ≤ T
    have := t.isLt
    exact Fin.mk_le_of_le_val (by simp [hTdef]; omega)
  have hcumT : cumWeight A x i T c = ∑ j, A i j := by
    rw [cumWeight, hIic]
    exact colEntry_fst_sum x c (A i)
  apply le_antisymm
  · apply Finset.sup'_le
    intro s _
    rw [← hcumT]
    exact cumWeight_mono A x hA i c (by
      have := s.isLt
      exact Fin.mk_le_of_le_val (by simp [hTdef]; omega))
  · rw [← hcumT]
    exact Finset.le_sup' (fun s => cumWeight A x i s c) (Finset.mem_univ T)

/-- C9: for non-negative weights, `weighted_dimwise_median_cpu` selects, per
feature dimension, the value at the first sorted position whose cumulative
weight reaches half of the row's total weight — that position being the
count of positions with cumulative weight strictly below half — and scales
it by the row's total weight. -/
theorem weighted_dimwise_median_cpu_spec {n d : ℕ} (A : Fin n → Fin n → ℝ)
    (x : Fin n → Fin d → ℝ) (hA : ∀ i j, 0 ≤ A i j) (i : Fin n) (c : Fin d) :
    weightSum A x i c = ∑ j, A i j ∧
    ∃ pos : Fin n,
      pos.val = medianElement A x i c ∧
      (∑ j, A i j) / 2 ≤ cumWeight A x i pos c ∧
      (∀ q : Fin n, q < pos → cumWeight A x i q c < (∑ j, A i j) / 2) ∧
      weighted_dimwise_median_cpu A x i c = (∑ j, A i j) * (colEntry x c pos).2 := by
  have hW := weightSum_eq_rowsum A x hA i c
  have hWnn : 0 ≤ ∑ j, A i j := Finset.sum_nonneg fun j _ => hA i j
  set F : Finset (Fin n) :=
    Finset.univ.filter (fun s : Fin n => cumWeight A x i s c < weightSum A x i c / 2)
    with hF
  set T : Fin n := ⟨n - 1, by have := i.pos; omega⟩ with hTdef
  have hcumT : cumWeight A x i T c = ∑ j, A i j := by
    have hIic : Finset.Iic T = Finset.univ := by
      ext t
      simp only [Finset.mem_Iic, Finset.mem_univ, iff_true]
      have := t.isLt
      exact Fin.mk_le_of_le_val (by simp [hTdef]; omega)
    rw [cumWeight, hIic]
    exact colEntry_fst_sum x c (A i)
  have hTnot : T ∉ F := by
    rw [hF, Finset.mem_filter]
    push_neg
    intro _
    rw [hcumT, hW]
    linarith
  have hcard : F.card < n := by
    have hsub : F ⊆ Finset.univ.erase T := by
      intro t ht
      rw [Finset.mem_erase]
      exact ⟨fun he => hTnot (he ▸ ht), Finset.mem_univ t⟩
    calc F.card ≤ (Finset.univ.erase T).card := Finset.card_le_card hsub
      _ = n - 1 := by rw [Finset.card_erase_of_mem (Finset.mem_univ T), Finset.card_univ,
            Fintype.card_fin]
      _ < n := by have := i.pos; omega
  have hmed : medianElement A x i c = F.card := rfl
  refine ⟨hW, ⟨F.card, hcard⟩, by rw [hmed], ?_, ?_, ?_⟩
  · by_contra hlt
    push_neg at hlt
    have hsub : Finset.Iic (⟨F.card, hcard⟩ : Fin n) ⊆ F := by
      intro q hq
      rw [Finset.mem_Iic] at hq
      rw [hF, Finset.mem_filter]
      refine ⟨Finset.mem_univ q, ?_⟩
      rw [hW]
      exact lt_of_le_of_lt (cumWeight_mono A x hA i c hq) hlt
    have := Finset.card_le_card hsub
    rw [Fin.card_Iic] at this
    have hv : (⟨F.card, hcard⟩ : Fin n).val = F.card := rfl
    omega
  · intro q hq
    by_contra hge
    push_neg at hge
    have hsub : F ⊆ Finset.Iio q := by
      intro t ht
      rw [Finset.mem_Iio]
      by_contra hto
      push_neg at hto
      rw [hF, Finset.mem_filter] at ht
      have : cumWeight A x i q c ≤ cumWeight A x i t c :=
        cumWeight_mono A x hA i c hto
      rw [hW] at ht
      linarith [ht.2]
    have := Finset.card_le_card hsub
    rw [Fin.card_Iio] at this
    have hqlt : q.val < F.card := hq
    omega
  · rw [weighted_dimwise_median_cpu, hW]
    congr 1
    have hlen : medianElement A x i c < ((colSorted x c).map Prod.fst).length := by
      rw [List.length_map, colSorted_length, hmed]
      exact hcard
    rw [List.getD_eq_getElem _ _ hlen, colEntry_snd]
    congr 1
    simp only [List.getElem_map]
    simp [colEntry, List.get_eq_getElem, hmed]

/-- Witness for C9: the spec's top-k example adjacency (densified) with a
simple 4×1 feature matrix; all weights are non-negative. -/
theorem weighted_dimwise_median_cpu_spec_witness :
    (∀ i j : Fin 4, 0 ≤ specTopkAdj i j) ∧
    (weightSum specTopkAdj dimFeat4 0 0 = ∑ j, specTopkAdj 0 j ∧
     ∃ pos : Fin 4,
       pos.val = medianElement specTopkAdj dimFeat4 0 0 ∧
       (∑ j, specTopkAdj 0 j) / 2 ≤ cumWeight specTopkAdj dimFeat4 0 pos 0 ∧
       (∀ q : Fin 4, q < pos →
         cumWeight specTopkAdj dimFeat4 0 q 0 < (∑ j, specTopkAdj 0 j) / 2) ∧
       weighted_dimwise_median_cpu specTopkAdj dimFeat4 0 0
         = (∑ j, specTopkAdj 0 j) * (colEntry dimFeat4 0 pos).2) := by
  have hA : ∀ i j : Fin 4, 0 ≤ specTopkAdj i j := by
    intro i j
    fin_cases i <;> fin_cases j <;> norm_num [specTopkAdj]
  exact ⟨hA, weighted_dimwise_median_cpu_spec specTopkAdj dimFeat4 hA 0 0⟩

/-! ### Structure of the patched COO list -/

lemma flatten_map_single {α β : Type _} {l : List α} (hnd : l.Nodup) {i : α}
    (hi : i ∈ l) (g : α → List β) (hg : ∀ i' ∈ l, i' ≠ i → g i' = []) :
    (l.map g).flatten = g i := by
  induction l with
  | nil => cases hi
  | cons a l ih =>
    rcases List.mem_cons.mp hi with rfl | hi'
    · simp only [List.map_cons, List.flatten_cons]
      have hz : ∀ i' ∈ l, g i' = [] := fun i' h' =>
        hg i' (List.mem_cons_of_mem _ h')
          (fun he => (List.nodup_cons.mp hnd).1 (he ▸ h'))
      have hl : (l.map g).flatten = [] := by
        rw [List.map_congr_left hz]
        simp
      rw [hl, List.append_nil]
    · have hne : a ≠ i := fun he => (List.nodup_cons.mp hnd).1 (he ▸ hi')
      have ha : g a = [] := hg a (List.mem_cons_self a l) hne
      simp only [List.map_cons, List.flatten_cons, ha, List.nil_append]
      exact ih (List.nodup_cons.mp hnd).2 hi'
        (fun i' h' hne' => hg i' (List.mem_cons_of_mem a h') hne')

lemma rowSeg_append {n : ℕ} (L1 L2 : List (Fin n × Fin n × ℝ)) (i : Fin n) :
    rowSeg (L1 ++ L2) i = rowSeg L1 i ++ rowSeg L2 i := by
  rw [rowSeg, List.filter_append, List.map_append, rowSeg, rowSeg]

lemma rowSeg_cooOfDense {n : ℕ} (A : Fin n → Fin n → ℝ) (i : Fin n) :
    rowSeg (cooOfDense A) i = nzPairs A i := by
  rw [rowSeg, cooOfDense, List.flatMap_def, List.filter_flatten, List.map_map]
  have hsingle : ((List.finRange n).map
      (List.filter (fun e => decide (e.1 = i)) ∘ fun i' =>
        (List.finRange n).filterMap fun j =>
          if A i' j ≠ 0 then some (i', j, A i' j) else none)).flatten
      = ((List.finRange n).filterMap fun j =>
          if A i j ≠ 0 then some (i, j, A i j) else none) := by
    have hall : ∀ i' : Fin n, ∀ e ∈ ((List.finRange n).filterMap fun j =>
        if A i' j ≠ 0 then some (i', j, A i' j) else none), e.1 = i' := by
      intro i' e he
      rw [List.mem_filterMap] at he
      obtain ⟨j, _, hj⟩ := he
      by_cases h : A i' j ≠ 0
      · rw [if_pos h] at hj
        cases hj
        rfl
      · rw [if_neg h] at hj
        cases hj
    rw [flatten_map_single (List.nodup_finRange n) (List.mem_finRange i)]
    · simp only [Function.comp]
      apply List.filter_eq_self.mpr
      intro e he
      simp [hall i e he]
    · intro i' _ hne
      simp only [Function.comp]
      apply List.filter_eq_nil_iff.mpr
      intro e he
      simp [hall i' e he, hne]
  rw [hsingle, List.map_filterMap]
  apply List.filterMap_congr
  intro j _
  by_cases h : A i j ≠ 0
  · rw [if_pos h, if_pos h]
    rfl
  · rw [if_neg h, if_neg h]
    rfl

lemma rowSeg_patchPart {n : ℕ} (A : Fin n → Fin n → ℝ) (i : Fin n) :
    rowSeg ((List.finRange n).flatMap fun i' =>
      if ∀ j, A i' j = 0 then [(i', ⟨0, i'.pos⟩, (0 : ℝ))] else []) i
      = if ∀ j, A i j = 0 then [((⟨0, i.pos⟩ : Fin n), (0 : ℝ))] else [] := by
  rw [rowSeg, List.flatMap_def, List.filter_flatten, List.map_map]
  rw [flatten_map_single (List.nodup_finRange n) (List.mem_finRange i)]
  · by_cases h : ∀ j, A i j = 0
    · simp only [Function.comp, if_pos h]
      simp [List.filter]
    · simp only [Function.comp, if_neg h]
      simp [List.filter]
  · intro i' _ hne
    simp only [Function.comp]
    by_cases h : ∀ j, A i' j = 0
    · rw [if_pos h]
      simp [List.filter, hne]
    · rw [if_neg h]
      simp [List.filter]

/-- The per-row content of the patched sparse format: the stored nonzeros of
the row, or the single zero-weight placeholder for a disconnected row. -/
lemma rowSeg_patchedCoo {n : ℕ} (A : Fin n → Fin n → ℝ) (i : Fin n) :
    rowSeg (patchedCoo A) i
      = if ∀ j, A i j = 0 then [((⟨0, i.pos⟩ : Fin n), (0 : ℝ))]
        else nzPairs A i := by
  rw [patchedCoo, rowSeg_append, rowSeg_cooOfDense, rowSeg_patchPart]
  by_cases h : ∀ j, A i j = 0
  · rw [if_pos h, if_pos h]
    have hnz : nzPairs A i = [] := by
      rw [nzPairs]
      apply List.filterMap_eq_nil_iff.mpr
      intro j _
      rw [if_neg (by simp [h j])]
    rw [hnz, List.nil_append]
  · rw [if_neg h, if_neg h, List.append_nil]

/-- The scatter-sum of the stored (patched) values of a row is the dense row
sum. -/
lemma sparseRowSum_eq {n : ℕ} (A : Fin n → Fin n → ℝ) (i : Fin n) :
    sparseRowSum A i = ∑ j, A i j := by
  rw [sparseRowSum, rowSeg_patchedCoo]
  by_cases h : ∀ j, A i j = 0
  · rw [if_pos h]
    simp [Finset.sum_congr rfl fun j _ => h j]
  · rw [if_neg h, nzPairs]
    rw [List.map_filterMap]
    have : ∀ j ∈ List.finRange n,
        ((if A i j ≠ 0 then some ((j, A i j)) else none).map Prod.snd)
          = if A i j ≠ 0 then some (A i j) else none := by
      intro j _
      by_cases hj : A i j ≠ 0
      · rw [if_pos hj, if_pos hj]
        rfl
      · rw [if_neg hj, if_neg hj]
        rfl
    rw [List.filterMap_congr this]
    have hsum : ∀ l : List (Fin n), l.Nodup →
        ((l.filterMap fun j => if A i j ≠ 0 then some (A i j) else none).sum
          = ∑ j ∈ l.toFinset, A i j) := by
      intro l hl
      induction l with
      | nil => simp
      | cons a l ih =>
        rw [List.filterMap_cons]
        have hmem : a ∉ l.toFinset := by
          simp [List.nodup_cons.mp hl |>.1]
        by_cases ha : A i a ≠ 0
        · rw [if_pos ha]
          simp only [List.sum_cons, List.toFinset_cons]
          rw [Finset.sum_insert hmem, ih (List.nodup_cons.mp hl).2]
        · rw [if_neg ha]
          push_neg at ha
          simp only [List.toFinset_cons]
          rw [Finset.sum_insert hmem, ih (List.nodup_cons.mp hl).2, ha, zero_add]
    rw [hsum (List.finRange n) (List.nodup_finRange n)]
    congr 1
    apply Finset.ext
    intro j
    simp [List.mem_finRange]

/-! ### C4: the `k > n` guards -/

/-- C4: when the requested `k` exceeds `n`,
`soft_weighted_medoid_k_neighborhood` with weight correction fails fast with
the not-implemented error (no result is produced), without weight correction
it falls back to the unrestricted `soft_weighted_medoid`, and
`weighted_medoid_k_neighborhood` falls back to `weighted_medoid`; at the
boundary `k = n` (where the spec text states its configuration-error
condition as `k ≥ n`) the code raises no error and proceeds normally. -/
theorem k_exceeds_n_fallback_spec {n d : ℕ} (A : Fin n → Fin n → ℝ)
    (x : Fin n → Fin d → ℝ) (k : ℕ) (T : ℝ) (threshold : ℕ) (eps : ℝ) :
    (n < k → soft_weighted_medoid_k_neighborhood A x k T true threshold eps
      = Except.error
          "k less than n and with_weight_correction is not implemented.") ∧
    (n < k → soft_weighted_medoid_k_neighborhood A x k T false threshold eps
      = Except.ok (soft_weighted_medoid A x T)) ∧
    (n < k → ∀ i c, weighted_medoid_k_neighborhood A x k i c
      = weighted_medoid A x i c) ∧
    (k ≤ n → ∀ corr, ∃ f, soft_weighted_medoid_k_neighborhood A x k T corr
      threshold eps = Except.ok f) := by
  refine ⟨?_, ?_, ?_, ?_⟩
  · intro hk
    rw [soft_weighted_medoid_k_neighborhood, if_pos hk, if_pos rfl]
  · intro hk
    rw [soft_weighted_medoid_k_neighborhood, if_pos hk]
    rfl
  · intro hk i c
    rw [weighted_medoid_k_neighborhood, if_pos hk]
  · intro hk corr
    rw [soft_weighted_medoid_k_neighborhood, if_neg (not_lt.mpr hk)]
    by_cases ht : n < threshold
    · rw [if_pos ht]
      exact ⟨_, rfl⟩
    · rw [if_neg ht]
      exact ⟨_, rfl⟩

/-- Witness for C4: a 3-node graph with `k = 4 > n` in all three fallback
modes, and the `k = n = 3` boundary raising no error. -/
theorem k_exceeds_n_fallback_spec_witness :
    ((3 : ℕ) < 4 ∧
      soft_weighted_medoid_k_neighborhood onesAdj3 onesFeat3 4 1 true 5000 0
        = Except.error
            "k less than n and with_weight_correction is not implemented.") ∧
    (soft_weighted_medoid_k_neighborhood onesAdj3 onesFeat3 4 1 false 5000 0
      = Except.ok (soft_weighted_medoid onesAdj3 onesFeat3 1)) ∧
    (weighted_medoid_k_neighborhood onesAdj3 onesFeat3 4 0 0
      = weighted_medoid onesAdj3 onesFeat3 0 0) ∧
    ((3 : ℕ) ≤ 3 ∧ ∃ f, soft_weighted_medoid_k_neighborhood onesAdj3 onesFeat3
      3 1 true 5000 0 = Except.ok f) :=
  ⟨⟨by norm_num,
     (k_exceeds_n_fallback_spec onesAdj3 onesFeat3 4 1 5000 0).1 (by norm_num)⟩,
   (k_exceeds_n_fallback_spec onesAdj3 onesFeat3 4 1 5000 0).2.1 (by norm_num),
   (k_exceeds_n_fallback_spec onesAdj3 onesFeat3 4 1 5000 0).2.2.1
     (by norm_num) 0 0,
   ⟨le_refl 3,
    (k_exceeds_n_fallback_spec onesAdj3 onesFeat3 3 1 5000 0).2.2.2
      (by norm_num) true⟩⟩

/-! ### C2: disconnected rows -/

/-- C2: for non-negative weights, every aggregation variant scales output row
`i` by `row_sum(A, i)`, so a row with zero out-degree yields exactly the zero
vector — in the real-number idealisation every output entry is a well-defined
(finite) real, never an undefined value.  This covers all six variants,
including both the dense and the sparse path of the soft weighted medoid
k-neighborhood, for every `k`, temperature, weight-correction flag and
epsilon. -/
theorem robust_aggregations_zero_row_spec {n d : ℕ} (A : Fin n → Fin n → ℝ)
    (x : Fin n → Fin d → ℝ) (hA : ∀ i j, 0 ≤ A i j) (k : ℕ) (T : ℝ)
    (corr : Bool) (eps epsg : ℝ) (i : Fin n) (hrow : ∑ j, A i j = 0) :
    (∀ c, weighted_medoid A x i c = 0) ∧
    (∀ c, weighted_medoid_k_neighborhood A x k i c = 0) ∧
    (∀ c, soft_weighted_medoid A x T i c = 0) ∧
    (∀ c, weighted_dimwise_median_cpu A x i c = 0) ∧
    (∀ c, soft_median A x T i c = 0) ∧
    (∀ c, dense_cpu_soft_weighted_medoid_k_neighborhood A x k T corr eps epsg
      i c = 0) ∧
    (∀ c, soft_weighted_medoid_k_neighborhood_sparse A x k T corr eps i c = 0) := by
  have h0 : ∀ j, A i j = 0 := fun j =>
    (Finset.sum_eq_zero_iff_of_nonneg (fun j _ => hA i j)).mp hrow j
      (Finset.mem_univ j)
  refine ⟨?_, ?_, ?_, ?_, ?_, ?_, ?_⟩
  · intro c
    rw [weighted_medoid, hrow, zero_mul]
  · intro c
    rw [weighted_medoid_k_neighborhood]
    by_cases h : n < k
    · rw [if_pos h, weighted_medoid, hrow, zero_mul]
    · rw [if_neg h, hrow, zero_mul]
  · intro c
    rw [soft_weighted_medoid, hrow, zero_mul]
  · intro c
    rw [weighted_dimwise_median_cpu, weightSum_eq_rowsum A x hA, hrow, zero_mul]
  · intro c
    rw [soft_median]
    have hempty : Finset.univ.filter (fun j => A i j ≠ 0) = ∅ :=
      Finset.filter_eq_empty_iff.mpr (fun {j} _ => by simp [h0 j])
    rw [hempty, Finset.sum_empty]
  · intro c
    rw [dense_cpu_soft_weighted_medoid_k_neighborhood, hrow, zero_mul]
  · intro c
    rw [soft_weighted_medoid_k_neighborhood_sparse, sparseRowSum_eq, hrow,
      zero_mul]

/-- Witness for C2 at the spec's §8 disconnected-node regression case: the
4-node adjacency whose row 3 is all zero, with `k = 2` and weight
correction; both the dense and the sparse path give the zero row. -/
theorem robust_aggregations_zero_row_spec_witness :
    (∀ i j : Fin 4, 0 ≤ discAdj4 i j) ∧ (∑ j, discAdj4 3 j = 0) ∧
    (∀ c, dense_cpu_soft_weighted_medoid_k_neighborhood discAdj4 discFeat4 2 1
      true (1 / 10 ^ 10) defaultDistEps 3 c = 0) ∧
    (∀ c, soft_weighted_medoid_k_neighborhood_sparse discAdj4 discFeat4 2 1
      true (1 / 10 ^ 10) 3 c = 0) := by
  have hA : ∀ i j : Fin 4, 0 ≤ discAdj4 i j := by
    intro i j
    fin_cases i <;> fin_cases j <;> norm_num [discAdj4]
  have hrow : ∑ j, discAdj4 3 j = 0 := by
    rw [Fin.sum_univ_four]
    norm_num [discAdj4, Matrix.vecHead, Matrix.vecTail]
  have h := robust_aggregations_zero_row_spec discAdj4 discFeat4 hA 2 1 true
    (1 / 10 ^ 10) defaultDistEps 3 hrow
  exact ⟨hA, hrow, h.2.2.2.2.2.1, h.2.2.2.2.2.2⟩

/-! ### C8: the hard weighted medoid -/

lemma argminIdx_spec {k : ℕ} (v : Fin k → ℝ) (hk : 0 < k) :
    ∃ h : argminIdx v < k, ∀ t, v ⟨argminIdx v, h⟩ ≤ v t := by
  have hne : {a : ℕ | ∃ ha : a < k, ∀ t, v ⟨a, ha⟩ ≤ v t}.Nonempty := by
    obtain ⟨j, _, hj⟩ := Finset.exists_min_image Finset.univ v
      ⟨⟨0, hk⟩, Finset.mem_univ _⟩
    exact ⟨j.val, j.isLt, fun t => by simpa using hj t (Finset.mem_univ t)⟩
  exact Nat.sInf_mem hne

/-- On a neighbour (nonzero weight) the medoid criterion is the plain
weighted distance sum, provided that sum stays below `FMAX`. -/
lemma medoidScore_neighbor {n d : ℕ} (A : Fin n → Fin n → ℝ)
    (x : Fin n → Fin d → ℝ) (i cand : Fin n) (hc : A i cand ≠ 0)
    (hlt : (∑ j, A i j * distance_matrix x defaultDistEps cand j) < FMAX) :
    medoidScore A x i cand
      = ∑ j, A i j * distance_matrix x defaultDistEps cand j := by
  rw [medoidScore]
  have heq : (∑ j, if A i cand = 0 then FMAX
        else A i j * distance_matrix x defaultDistEps cand j)
      = ∑ j, A i j * distance_matrix x defaultDistEps cand j :=
    Finset.sum_congr rfl fun j _ => if_neg hc
  rw [heq, clampF, min_eq_left hlt.le]

/-- On a non-neighbour the masking forces the medoid criterion to `FMAX`. -/
lemma medoidScore_nonneighbor {n d : ℕ} (A : Fin n → Fin n → ℝ)
    (x : Fin n → Fin d → ℝ) (i cand : Fin n) (hc : A i cand = 0) :
    medoidScore A x i cand = FMAX := by
  rw [medoidScore]
  have heq : (∑ j : Fin n, if A i cand = 0 then FMAX
        else A i j * distance_matrix x defaultDistEps cand j)
      = (n : ℝ) * FMAX := by
    rw [Finset.sum_congr rfl fun j _ => if_pos hc]
    rw [Finset.sum_const, Finset.card_univ, Fintype.card_fin, nsmul_eq_mul]
  rw [heq, clampF, min_eq_right]
  exact le_mul_of_one_le_left FMAX_pos.le (by
    have := i.pos
    exact_mod_cast this)

/-- C8: `weighted_medoid` returns, for every row with at least one neighbour
(and weighted distance sums below the overflow threshold), the row sum times
the features of a neighbour minimising the weighted distance sum over all
neighbours; non-neighbours are excluded by the `finfo.max` forcing. -/
theorem weighted_medoid_spec {n d : ℕ} (A : Fin n → Fin n → ℝ)
    (x : Fin n → Fin d → ℝ) (hA : ∀ i j, 0 ≤ A i j) (i : Fin n)
    (hnb : ∃ cand, 0 < A i cand)
    (hS : ∀ cand, 0 < A i cand →
      (∑ j, A i j * distance_matrix x defaultDistEps cand j) < FMAX) :
    ∃ cstar : Fin n,
      0 < A i cstar ∧
      (∀ cand, 0 < A i cand →
        (∑ j, A i j * distance_matrix x defaultDistEps cstar j)
          ≤ ∑ j, A i j * distance_matrix x defaultDistEps cand j) ∧
      ∀ c, weighted_medoid A x i c = (∑ j, A i j) * x cstar c := by
  obtain ⟨c0, hc0⟩ := hnb
  obtain ⟨hlt, hmin⟩ := argminIdx_spec (medoidScore A x i) i.pos
  have hscore_c0 : medoidScore A x i c0 < FMAX := by
    rw [medoidScore_neighbor A x i c0 (ne_of_gt hc0) (hS c0 hc0)]
    exact hS c0 hc0
  have ha_lt : medoidScore A x i ⟨argminIdx (medoidScore A x i), hlt⟩ < FMAX :=
    lt_of_le_of_lt (hmin c0) hscore_c0
  have ha_nb : 0 < A i ⟨argminIdx (medoidScore A x i), hlt⟩ := by
    rcases (hA i ⟨argminIdx (medoidScore A x i), hlt⟩).lt_or_eq with h | h
    · exact h
    · exfalso
      rw [medoidScore_nonneighbor A x i _ h.symm] at ha_lt
      exact lt_irrefl _ ha_lt
  refine ⟨⟨argminIdx (medoidScore A x i), hlt⟩, ha_nb, ?_, ?_⟩
  · intro cand hcand
    have h1 := hmin cand
    rwa [medoidScore_neighbor A x i _ (ne_of_gt ha_nb)
        (hS _ ha_nb),
      medoidScore_neighbor A x i cand (ne_of_gt hcand) (hS cand hcand)] at h1
  · intro c
    rw [weighted_medoid]
    congr 2
    rw [finClamp, dif_pos hlt]

/-- Witness for C8: a 2-node graph where node 0 has itself as only
neighbour; all weighted distance sums stay far below `FMAX`. -/
theorem weighted_medoid_spec_witness :
    (∀ i j : Fin 2, 0 ≤ medAdj2 i j) ∧ (0 < medAdj2 0 0) ∧
    (∀ cand, 0 < medAdj2 0 cand →
      (∑ j, medAdj2 0 j * distance_matrix medFeat2 defaultDistEps cand j)
        < FMAX) ∧
    ∃ cstar : Fin 2,
      0 < medAdj2 0 cstar ∧
      (∀ cand, 0 < medAdj2 0 cand →
        (∑ j, medAdj2 0 j * distance_matrix medFeat2 defaultDistEps cstar j)
          ≤ ∑ j, medAdj2 0 j * distance_matrix medFeat2 defaultDistEps cand j) ∧
      ∀ c, weighted_medoid medAdj2 medFeat2 0 c
        = (∑ j, medAdj2 0 j) * medFeat2 cstar c := by
  have hA : ∀ i j : Fin 2, 0 ≤ medAdj2 i j := by
    intro i j
    fin_cases i <;> fin_cases j <;> norm_num [medAdj2]
  have hdm : ∀ cand j : Fin 2,
      distance_matrix medFeat2 defaultDistEps cand j
        = Real.sqrt defaultDistEps := by
    intro cand j
    rw [distance_matrix]
    congr 1
    simp [sqnorm, inprod, medFeat2]
  have hsqrt : Real.sqrt defaultDistEps ≤ 1 := by
    rw [show (1 : ℝ) = Real.sqrt 1 by rw [Real.sqrt_one]]
    apply Real.sqrt_le_sqrt
    norm_num [defaultDistEps, machineEps]
  have hS : ∀ cand, 0 < medAdj2 0 cand →
      (∑ j, medAdj2 0 j * distance_matrix medFeat2 defaultDistEps cand j)
        < FMAX := by
    intro cand _
    rw [Fin.sum_univ_two, hdm, hdm]
    have h1 : medAdj2 0 0 = 1 := by norm_num [medAdj2]
    have h2 : medAdj2 0 1 = 0 := by norm_num [medAdj2]
    rw [h1, h2]
    have : 0 < FMAX := FMAX_pos
    norm_num [FMAX]
    nlinarith [hsqrt, Real.sqrt_nonneg defaultDistEps]
  exact ⟨hA, by norm_num [medAdj2], hS,
    weighted_medoid_spec medAdj2 medFeat2 hA 0 ⟨0, by norm_num [medAdj2]⟩ hS⟩

/-! ### Slot-level facts shared by the C7/C1 proofs -/

/-- An empty (sentinel) slot of the sparse top-k carries weight `0`. -/
lemma sparseVal_sentinel {n : ℕ} (A : Fin n → Fin n → ℝ) (k : ℕ) (i : Fin n)
    (a : Fin k) (h : sparseIdx A k i a = -1) : sparseVal A k i a = 0 := by
  rw [sparseVal, topkVal]
  by_cases hlt : a.val < (topkSlots (patchedCoo A) k i).length
  · exfalso
    rw [sparseIdx, topkIdx,
      List.getD_eq_getElem _ _ (by rw [List.length_map]; exact hlt)] at h
    simp only [List.getElem_map] at h
    omega
  · apply List.getD_eq_default
    rw [List.length_map]
    omega

/-- A valid slot of the sparse top-k carries a non-sentinel index. -/
lemma sparseIdx_valid {n : ℕ} (A : Fin n → Fin n → ℝ) (k : ℕ) (i : Fin n)
    (a : Fin k) (hlt : a.val < (topkSlots (patchedCoo A) k i).length) :
    sparseIdx A k i a
      = (((topkSlots (patchedCoo A) k i).get ⟨a.val, hlt⟩).1.val : ℤ) := by
  rw [sparseIdx, topkIdx,
    List.getD_eq_getElem _ _ (by rw [List.length_map]; exact hlt)]
  simp [List.get_eq_getElem]

/-- Collapsing a scatter-then-matmul: summing the scattered slot values
against any column function equals summing directly over the slots. -/
lemma scatter_collapse {n k : ℕ} (col : Fin k → Fin n) (v : Fin k → ℝ)
    (g : Fin n → ℝ) :
    ∑ j, (∑ a, if col a = j then v a else 0) * g j = ∑ a, v a * g (col a) := by
  have h1 : ∀ j, (∑ a, if col a = j then v a else 0) * g j
      = ∑ a, if col a = j then v a * g j else 0 := by
    intro j
    rw [Finset.sum_mul]
    exact Finset.sum_congr rfl fun a _ => by
      by_cases h : col a = j
      · rw [if_pos h, if_pos h]
      · rw [if_neg h, if_neg h, zero_mul]
  rw [Finset.sum_congr rfl fun j _ => h1 j, Finset.sum_comm]
  apply Finset.sum_congr rfl
  intro a _
  rw [Finset.sum_ite_eq Finset.univ (col a) (fun j => v a * g j)]
  rw [if_pos (Finset.mem_univ _)]

lemma scatter_collapse_sum {n k : ℕ} (col : Fin k → Fin n) (v : Fin k → ℝ) :
    ∑ j, (∑ a, if col a = j then v a else 0) = ∑ a, v a := by
  have := scatter_collapse col v (fun _ => 1)
  simpa using this

/-- The softmax of a constant vector is uniform. -/
lemma softmaxR_of_const {k : ℕ} (z : Fin k → ℝ) (cst : ℝ)
    (hz : ∀ a, z a = cst) (hk : 0 < k) (a : Fin k) :
    softmaxR z a = 1 / k := by
  have hkR : (0 : ℝ) < k := by exact_mod_cast hk
  rw [softmaxR, hz a, Finset.sum_congr rfl fun b _ => by rw [hz b],
    Finset.sum_const, Finset.card_univ, Fintype.card_fin, nsmul_eq_mul]
  rw [div_eq_div_iff (by positivity) (by positivity)]
  ring

/-! ### C7: uniform distances reduce the corrected soft k-medoid to the
weighted mean -/

/-- C7: when all pairwise distances among the selected top-k neighbourhood
are equal, the softmax becomes uniform and with `with_weight_correction=True`
both the dense path (for any `eps ≥ 0`, exhibiting the exact `eps`
perturbation of the denominator) and the sparse path (at `eps = 0`) reduce
to `row_sum(A, i)` times the weighted mean of the selected neighbours'
features. -/
theorem weight_corrected_uniform_distance_reduces_to_mean {n d : ℕ}
    (A : Fin n → Fin n → ℝ) (x : Fin n → Fin d → ℝ) (k : ℕ) (T eps epsg δ δ' : ℝ)
    (i : Fin n) (hk : 0 < k) (heps : 0 ≤ eps)
    (hdense : ∀ a b : Fin k,
      distance_matrix x epsg (denseTopkCol A k i a.val) (denseTopkCol A k i b.val) = δ)
    (hWd : 0 < ∑ a : Fin k, denseTopkVal A k i a.val)
    (hsparse : ∀ a b : Fin k, sparseIdx A k i a ≠ -1 → sparseIdx A k i b ≠ -1 →
      partialDistanceMatrix x (sparseIdx A k) i a b = δ')
    (hWs : 0 < ∑ a : Fin k, sparseVal A k i a) :
    (∀ c, dense_cpu_soft_weighted_medoid_k_neighborhood A x k T true eps epsg i c
      = (∑ j, A i j) *
        ((∑ a : Fin k, denseTopkVal A k i a.val * x (denseTopkCol A k i a.val) c) /
          ((∑ a : Fin k, denseTopkVal A k i a.val) + k * eps))) ∧
    (∀ c, soft_weighted_medoid_k_neighborhood_sparse A x k T true 0 i c
      = (∑ j, A i j) *
        ((∑ a : Fin k, sparseVal A k i a * getFeat x (sparseIdx A k i a) c) /
          (∑ a : Fin k, sparseVal A k i a))) := by
  have hkR : (0 : ℝ) < k := by exact_mod_cast hk
  constructor
  · -- dense path
    intro c
    set W := ∑ a : Fin k, denseTopkVal A k i a.val with hWdef
    have hscore : ∀ a : Fin k, denseSwmkScore A x k epsg i a = clampF (W * δ) := by
      intro a
      rw [denseSwmkScore]
      congr 1
      rw [Finset.sum_congr rfl fun b _ => by rw [hdense a b], ← Finset.sum_mul,
        ← hWdef]
    have hsm : ∀ a : Fin k,
        softmaxR (fun b => -(denseSwmkScore A x k epsg i b) / T) a = 1 / k :=
      fun a => softmaxR_of_const _ (-(clampF (W * δ)) / T)
        (fun b => by rw [hscore b]) hk a
    have hscatter : ∀ j, denseScatter A x k T true epsg i j
        = ∑ a : Fin k, if denseTopkCol A k i a.val = j
            then 1 / (k : ℝ) * denseTopkVal A k i a.val else 0 := by
      intro j
      rw [denseScatter]
      exact Finset.sum_congr rfl fun a _ => by
        by_cases h : denseTopkCol A k i a.val = j
        · rw [if_pos h, if_pos h, if_pos rfl, hsm a]
        · rw [if_neg h, if_neg h]
    rw [dense_cpu_soft_weighted_medoid_k_neighborhood]
    congr 1
    have hweights : ∀ j, denseTopkWeights A x k T true eps epsg i j
        = denseScatter A x k T true epsg i j /
            ((∑ j', denseScatter A x k T true epsg i j') + eps) := by
      intro j
      rw [denseTopkWeights, if_pos rfl]
    rw [Finset.sum_congr rfl fun j _ => by rw [hweights j, div_mul_eq_mul_div],
      ← Finset.sum_div]
    have hnum : (∑ j, denseScatter A x k T true epsg i j * x j c)
        = 1 / (k : ℝ) *
            ∑ a : Fin k, denseTopkVal A k i a.val * x (denseTopkCol A k i a.val) c := by
      rw [Finset.sum_congr rfl fun j _ => by rw [hscatter j],
        scatter_collapse (fun a : Fin k => denseTopkCol A k i a.val)
          (fun a : Fin k => 1 / (k : ℝ) * denseTopkVal A k i a.val)
          (fun j => x j c),
        Finset.mul_sum]
      exact Finset.sum_congr rfl fun a _ => by ring
    have hden : (∑ j', denseScatter A x k T true epsg i j') = 1 / (k : ℝ) * W := by
      rw [Finset.sum_congr rfl fun j _ => by rw [hscatter j],
        scatter_collapse_sum (fun a : Fin k => denseTopkCol A k i a.val)
          (fun a : Fin k => 1 / (k : ℝ) * denseTopkVal A k i a.val),
        ← Finset.mul_sum, ← hWdef]
    rw [hnum, hden]
    rw [div_eq_div_iff (by positivity) (by positivity)]
    have hk0 : (k : ℝ) ≠ 0 := ne_of_gt hkR
    field_simp
    exact Or.inl (mul_comm _ _)
  · -- sparse path
    intro c
    set W := ∑ a : Fin k, sparseVal A k i a with hWdef
    set E := Real.exp (-(clampF (W * δ')) / T) with hEdef
    have hscorev : ∀ a : Fin k, sparseIdx A k i a ≠ -1 →
        sparseSwmkScore A x k i a = clampF (W * δ') := by
      intro a ha
      rw [sparseSwmkScore, if_neg ha]
      congr 1
      rw [Finset.sum_congr rfl fun b _ => ?_, ← Finset.sum_mul, ← hWdef]
      by_cases hb : sparseIdx A k i b = -1
      · rw [sparseVal_sentinel A k i b hb, zero_mul, zero_mul]
      · rw [hsparse a b ha hb]
    have hexp : ∀ a : Fin k,
        Real.exp (-(sparseSwmkScore A x k i a) / T) * sparseVal A k i a
          = E * sparseVal A k i a := by
      intro a
      by_cases ha : sparseIdx A k i a = -1
      · rw [sparseVal_sentinel A k i a ha, mul_zero, mul_zero]
      · rw [hscorev a ha, hEdef]
    set Z := ∑ b, Real.exp (-(sparseSwmkScore A x k i b) / T) with hZdef
    have hZpos : 0 < Z := Finset.sum_pos (fun b _ => Real.exp_pos _)
      ⟨⟨0, hk⟩, Finset.mem_univ _⟩
    have hEpos : 0 < E := Real.exp_pos _
    have hterm : ∀ b : Fin k,
        softmaxR (fun b' => -(sparseSwmkScore A x k i b') / T) b *
          sparseVal A k i b = E / Z * sparseVal A k i b := by
      intro b
      rw [softmaxR, ← hZdef, div_mul_eq_mul_div, hexp b, ← div_mul_eq_mul_div]
    have hsmval : (∑ b, softmaxR (fun b' => -(sparseSwmkScore A x k i b') / T) b *
        sparseVal A k i b) = E / Z * W := by
      rw [Finset.sum_congr rfl fun b _ => hterm b, ← Finset.mul_sum, ← hWdef]
    have hrel : ∀ a : Fin k, sparseIdx A k i a ≠ -1 →
        sparseReliable A x k T true 0 i a = sparseVal A k i a / W := by
      intro a ha
      rw [sparseReliable, if_pos rfl, hsmval, add_zero, softmaxR, ← hZdef,
        hscorev a ha, ← hEdef]
      rw [div_eq_div_iff (by positivity) (by positivity)]
      ring
    rw [soft_weighted_medoid_k_neighborhood_sparse, sparseRowSum_eq]
    congr 1
    have hterm2 : ∀ a : Fin k,
        (if sparseIdx A k i a = -1 then 0
         else sparseReliable A x k T true 0 i a * getFeat x (sparseIdx A k i a) c)
          = sparseVal A k i a * getFeat x (sparseIdx A k i a) c / W := by
      intro a
      by_cases ha : sparseIdx A k i a = -1
      · rw [if_pos ha, sparseVal_sentinel A k i a ha, zero_mul, zero_div]
      · rw [if_neg ha, hrel a ha, div_mul_eq_mul_div]
    rw [Finset.sum_congr rfl fun a _ => hterm2 a, ← Finset.sum_div]

/-- Witness for C7: a single-node graph with unit self-loop and constant
features — all selected distances are equal on both paths, and the corrected
soft k-medoid reduces to the weighted mean. -/
theorem weight_corrected_uniform_distance_reduces_to_mean_witness :
    ((0 : ℕ) < 1 ∧ (0 : ℝ) ≤ 0 ∧
     (∀ a b : Fin 1, distance_matrix zeroFeat1 defaultDistEps
        (denseTopkCol oneAdj1 1 0 a.val) (denseTopkCol oneAdj1 1 0 b.val)
          = Real.sqrt defaultDistEps) ∧
     (0 < ∑ a : Fin 1, denseTopkVal oneAdj1 1 0 a.val) ∧
     (∀ a b : Fin 1, sparseIdx oneAdj1 1 0 a ≠ -1 → sparseIdx oneAdj1 1 0 b ≠ -1 →
        partialDistanceMatrix zeroFeat1 (sparseIdx oneAdj1 1) 0 a b = 0) ∧
     (0 < ∑ a : Fin 1, sparseVal oneAdj1 1 0 a)) ∧
    (∀ c, dense_cpu_soft_weighted_medoid_k_neighborhood oneAdj1 zeroFeat1 1 1
        true 0 defaultDistEps 0 c
      = (∑ j, oneAdj1 0 j) *
        ((∑ a : Fin 1, denseTopkVal oneAdj1 1 0 a.val *
            zeroFeat1 (denseTopkCol oneAdj1 1 0 a.val) c) /
          ((∑ a : Fin 1, denseTopkVal oneAdj1 1 0 a.val) + 1 * 0))) ∧
    (∀ c, soft_weighted_medoid_k_neighborhood_sparse oneAdj1 zeroFeat1 1 1
        true 0 0 c
      = (∑ j, oneAdj1 0 j) *
        ((∑ a : Fin 1, sparseVal oneAdj1 1 0 a *
            getFeat zeroFeat1 (sparseIdx oneAdj1 1 0 a) c) /
          (∑ a : Fin 1, sparseVal oneAdj1 1 0 a))) := by
  have hA00 : oneAdj1 0 0 = 1 := by norm_num [oneAdj1]
  have hfr : List.finRange 1 = [0] := by decide
  have hdenseval : denseTopkVal oneAdj1 1 0 0 = 1 := by
    rw [denseTopkVal, denseTopkSlots, denseRowPairs, hfr, List.map_cons,
      List.map_nil, hA00]
    rfl
  have hWd : 0 < ∑ a : Fin 1, denseTopkVal oneAdj1 1 0 a.val := by
    rw [Fin.sum_univ_one]
    show 0 < denseTopkVal oneAdj1 1 0 0
    rw [hdenseval]
    norm_num
  have hdense : ∀ a b : Fin 1, distance_matrix zeroFeat1 defaultDistEps
      (denseTopkCol oneAdj1 1 0 a.val) (denseTopkCol oneAdj1 1 0 b.val)
        = Real.sqrt defaultDistEps := by
    intro a b
    have h1 : denseTopkCol oneAdj1 1 0 a.val = 0 := Subsingleton.elim _ _
    have h2 : denseTopkCol oneAdj1 1 0 b.val = 0 := Subsingleton.elim _ _
    rw [h1, h2, distance_matrix]
    congr 1
    simp [sqnorm, inprod, zeroFeat1]
  have hne : ¬∀ j : Fin 1, oneAdj1 0 j = 0 := by
    intro h
    have := h 0
    rw [hA00] at this
    norm_num at this
  have hnz : nzPairs oneAdj1 0 = [(0, 1)] := by
    rw [nzPairs, hfr, List.filterMap_cons, List.filterMap_nil]
    rw [if_pos (by rw [hA00]; norm_num), hA00]
  have hseg : rowSeg (patchedCoo oneAdj1) 0 = [(0, 1)] := by
    rw [rowSeg_patchedCoo, if_neg hne, hnz]
  have hslots : topkSlots (patchedCoo oneAdj1) 1 0 = [(0, 1)] := by
    rw [topkSlots, hseg]
    rfl
  have hidx : sparseIdx oneAdj1 1 0 0 = 0 := by
    rw [sparseIdx, topkIdx, hslots]
    rfl
  have hval : sparseVal oneAdj1 1 0 0 = 1 := by
    rw [sparseVal, topkVal, hslots]
    rfl
  have hWs : 0 < ∑ a : Fin 1, sparseVal oneAdj1 1 0 a := by
    rw [Fin.sum_univ_one, hval]
    norm_num
  have hsparse : ∀ a b : Fin 1, sparseIdx oneAdj1 1 0 a ≠ -1 →
      sparseIdx oneAdj1 1 0 b ≠ -1 →
      partialDistanceMatrix zeroFeat1 (sparseIdx oneAdj1 1) 0 a b = 0 := by
    intro a b _ _
    have ha : a = 0 := Subsingleton.elim _ _
    have hb : b = 0 := Subsingleton.elim _ _
    subst ha
    subst hb
    rw [partialDistanceMatrix, if_neg (by rw [hidx]; decide)]
    have : ∀ c : Fin 1, getFeat zeroFeat1
        (min (sparseIdx oneAdj1 1 0 0) (sparseIdx oneAdj1 1 0 0)) c
          - getFeat zeroFeat1
            (max (sparseIdx oneAdj1 1 0 0) (sparseIdx oneAdj1 1 0 0)) c = 0 := by
      intro c
      rw [min_self, max_self, sub_self]
    rw [Finset.sum_congr rfl fun c _ => by rw [this c]]
    simp
  have h := weight_corrected_uniform_distance_reduces_to_mean oneAdj1 zeroFeat1
    1 1 0 defaultDistEps (Real.sqrt defaultDistEps) 0 0 (by norm_num)
    (le_refl 0) hdense hWd hsparse hWs
  exact ⟨⟨by norm_num, le_refl 0, hdense, hWd, hsparse, hWs⟩,
    fun c => by rw [h.1 c]; norm_num, h.2⟩

/-! ### C1: dense vs sparse soft weighted medoid k-neighborhood -/

lemma softmaxR_pos {k : ℕ} (z : Fin k → ℝ) (a : Fin k) (hk : 0 < k) :
    0 < softmaxR z a :=
  div_pos (Real.exp_pos _)
    (Finset.sum_pos (fun b _ => Real.exp_pos _) ⟨⟨0, hk⟩, Finset.mem_univ _⟩)

lemma cex_finRange3 : List.finRange 3 = [0, 1, 2] := by decide

lemma cex_denseRowPairs :
    denseRowPairs cexAdj3 0 = [((0 : Fin 3), (0 : ℝ)), (1, 1), (2, 1)] := by
  rw [denseRowPairs, cex_finRange3]
  norm_num [cexAdj3, Matrix.vecHead, Matrix.vecTail]

lemma cex_sortDense :
    sortDesc (denseRowPairs cexAdj3 0) = [((1 : Fin 3), (1 : ℝ)), (2, 1), (0, 0)] := by
  rw [cex_denseRowPairs, sortDesc]
  norm_num [List.insertionSort, List.orderedInsert, topRel, Fin.le_def]

lemma cex_denseSlots :
    denseTopkSlots cexAdj3 3 0 = [((1 : Fin 3), (1 : ℝ)), (2, 1), (0, 0)] := by
  rw [denseTopkSlots, cex_sortDense]
  rfl

lemma cex_col0 : denseTopkCol cexAdj3 3 0 0 = 1 := by
  rw [denseTopkCol, cex_denseSlots]
  rfl

lemma cex_col1 : denseTopkCol cexAdj3 3 0 1 = 2 := by
  rw [denseTopkCol, cex_denseSlots]
  rfl

lemma cex_col2 : denseTopkCol cexAdj3 3 0 2 = 0 := by
  rw [denseTopkCol, cex_denseSlots]
  rfl

lemma cex_val0 : denseTopkVal cexAdj3 3 0 0 = 1 := by
  rw [denseTopkVal, cex_denseSlots]
  rfl

lemma cex_val1 : denseTopkVal cexAdj3 3 0 1 = 1 := by
  rw [denseTopkVal, cex_denseSlots]
  rfl

lemma cex_val2 : denseTopkVal cexAdj3 3 0 2 = 0 := by
  rw [denseTopkVal, cex_denseSlots]
  rfl

/-- The dense-path output of the counterexample at entry `(0, 0)` is twice
the softmax mass that the zero-weight slot (node 0 itself) receives. -/
lemma cex_dense_entry :
    dense_cpu_soft_weighted_medoid_k_neighborhood cexAdj3 cexFeat3 3 1 false
      (1 / 10 ^ 10) defaultDistEps 0 0
    = 2 * softmaxR
        (fun b => -(denseSwmkScore cexAdj3 cexFeat3 3 defaultDistEps 0 b) / 1) 2 := by
  rw [dense_cpu_soft_weighted_medoid_k_neighborhood]
  have hrs : (∑ j, cexAdj3 0 j) = 2 := by
    rw [Fin.sum_univ_three]
    norm_num [cexAdj3, Matrix.vecHead, Matrix.vecTail]
  have hw : ∀ j, denseTopkWeights cexAdj3 cexFeat3 3 1 false (1 / 10 ^ 10)
      defaultDistEps 0 j
      = denseScatter cexAdj3 cexFeat3 3 1 false defaultDistEps 0 j := fun j => rfl
  have hsc : ∀ j, denseScatter cexAdj3 cexFeat3 3 1 false defaultDistEps 0 j
      = ∑ a : Fin 3, if denseTopkCol cexAdj3 3 0 a.val = j then
          softmaxR (fun b =>
            -(denseSwmkScore cexAdj3 cexFeat3 3 defaultDistEps 0 b) / 1) a
        else 0 := fun j => rfl
  rw [hrs, Finset.sum_congr rfl fun j _ => by rw [hw j, hsc j],
    scatter_collapse (fun a : Fin 3 => denseTopkCol cexAdj3 3 0 a.val) _
      (fun j => cexFeat3 j 0)]
  rw [Fin.sum_univ_three]
  norm_num [cex_col0, cex_col1, cex_col2, cexFeat3, Matrix.vecHead, Matrix.vecTail]

lemma cex_dm01 : distance_matrix cexFeat3 defaultDistEps 0 1
    = Real.sqrt (1 + defaultDistEps) := by
  rw [distance_matrix]
  congr 1
  simp [sqnorm, inprod, cexFeat3, Fin.sum_univ_one]

lemma cex_dm02 : distance_matrix cexFeat3 defaultDistEps 0 2
    = Real.sqrt (1 + defaultDistEps) := by
  rw [distance_matrix]
  congr 1
  simp [sqnorm, inprod, cexFeat3, Fin.sum_univ_one, Matrix.vecHead, Matrix.vecTail]

lemma cex_dm00 : distance_matrix cexFeat3 defaultDistEps 0 0
    = Real.sqrt defaultDistEps := by
  rw [distance_matrix]
  congr 1
  simp [sqnorm, inprod, cexFeat3, Fin.sum_univ_one]
  norm_num

lemma cex_eps_bounds : 0 < defaultDistEps ∧ defaultDistEps ≤ 1 := by
  norm_num [defaultDistEps, machineEps]

/-- The counterexample's criterion for the zero-weight slot (node 0):
`2·√(1 + eps)`, stays below the clamp. -/
lemma cex_score2 : denseSwmkScore cexAdj3 cexFeat3 3 defaultDistEps 0 2
    = 2 * Real.sqrt (1 + defaultDistEps) := by
  have hsum : (∑ b : Fin 3, denseTopkVal cexAdj3 3 0 b.val *
      distance_matrix cexFeat3 defaultDistEps (denseTopkCol cexAdj3 3 0 (2 : Fin 3).val)
        (denseTopkCol cexAdj3 3 0 b.val))
      = 2 * Real.sqrt (1 + defaultDistEps) := by
    rw [Fin.sum_univ_three]
    norm_num [cex_col0, cex_col1, cex_col2, cex_val0, cex_val1, cex_val2,
      cex_dm01, cex_dm02]
    ring
  rw [denseSwmkScore, hsum, clampF, min_eq_left]
  have h1 : Real.sqrt (1 + defaultDistEps) ≤ 2 := by
    rw [show (2 : ℝ) = Real.sqrt 4 by
      rw [show (4 : ℝ) = 2 ^ 2 by norm_num, Real.sqrt_sq (by norm_num)]]
    apply Real.sqrt_le_sqrt
    have := cex_eps_bounds.2
    linarith
  have h2 : (4 : ℝ) ≤ FMAX := by norm_num [FMAX]
  linarith

/-- The sparse-path output of the counterexample at entry `(0, 0)` is exactly
zero: both stored neighbours of node 0 carry feature `0` and the sentinel
slot is masked out. -/
lemma cex_sparse_entry :
    soft_weighted_medoid_k_neighborhood_sparse cexAdj3 cexFeat3 3 1 false
      (1 / 10 ^ 10) 0 0 = 0 := by
  have hne : ¬∀ j : Fin 3, cexAdj3 0 j = 0 := by
    intro h
    have := h 1
    norm_num [cexAdj3] at this
  have hnz : nzPairs cexAdj3 0 = [((1 : Fin 3), (1 : ℝ)), (2, 1)] := by
    rw [nzPairs, cex_finRange3]
    norm_num [cexAdj3, List.filterMap, Matrix.vecHead, Matrix.vecTail]
  have hseg : rowSeg (patchedCoo cexAdj3) 0 = [((1 : Fin 3), (1 : ℝ)), (2, 1)] := by
    rw [rowSeg_patchedCoo, if_neg hne, hnz]
  have hslots : topkSlots (patchedCoo cexAdj3) 3 0
      = [((1 : Fin 3), (1 : ℝ)), (2, 1)] := by
    rw [topkSlots, hseg, sortDesc]
    norm_num [List.insertionSort, List.orderedInsert, topRel, Fin.le_def]
  have hidx0 : sparseIdx cexAdj3 3 0 0 = 1 := by
    rw [sparseIdx, topkIdx, hslots]
    rfl
  have hidx1 : sparseIdx cexAdj3 3 0 1 = 2 := by
    rw [sparseIdx, topkIdx, hslots]
    rfl
  have hidx2 : sparseIdx cexAdj3 3 0 2 = -1 := by
    rw [sparseIdx, topkIdx, hslots]
    rfl
  rw [soft_weighted_medoid_k_neighborhood_sparse, Fin.sum_univ_three]
  have hf1 : getFeat cexFeat3 (sparseIdx cexAdj3 3 0 0) 0 = 0 := by
    rw [hidx0, getFeat, dif_pos (by norm_num)]
    show cexFeat3 1 0 = 0
    norm_num [cexFeat3, Matrix.vecHead, Matrix.vecTail]
  have hf2 : getFeat cexFeat3 (sparseIdx cexAdj3 3 0 1) 0 = 0 := by
    rw [hidx1, getFeat, dif_pos (by norm_num)]
    show cexFeat3 2 0 = 0
    norm_num [cexFeat3, Matrix.vecHead, Matrix.vecTail]
  rw [if_neg (by rw [hidx0]; decide), if_neg (by rw [hidx1]; decide),
    if_pos hidx2, hf1, hf2]
  ring

/-- C1, counterexample: on a 3-node graph where row 0 has out-degree 2 < k
and its two neighbours share the features of node 0's antipode, the dense
CPU implementation and the sparse branch, called with identical `k = 3`,
`temperature = 1` and `with_weight_correction = False`, differ at entry
`(0, 0)` by more than `1/100` — far beyond floating-point tolerance: the
dense path leaks softmax mass to the zero-weight slot (the commented-out
masking line), the sparse path masks it via the sentinel. -/
theorem dense_sparse_soft_medoid_differ_on_low_degree_row :
    (1 / 100 : ℝ) ≤ dense_cpu_soft_weighted_medoid_k_neighborhood cexAdj3
      cexFeat3 3 1 false (1 / 10 ^ 10) defaultDistEps 0 0 ∧
    soft_weighted_medoid_k_neighborhood_sparse cexAdj3 cexFeat3 3 1 false
      (1 / 10 ^ 10) 0 0 = 0 ∧
    dense_cpu_soft_weighted_medoid_k_neighborhood cexAdj3 cexFeat3 3 1 false
        (1 / 10 ^ 10) defaultDistEps
      ≠ soft_weighted_medoid_k_neighborhood_sparse cexAdj3 cexFeat3 3 1 false
        (1 / 10 ^ 10) := by
  have hexp1 : Real.exp 1 < 2.7182818286 := Real.exp_one_lt_d9
  have hexp3 : Real.exp 3 < 21 := by
    have h3 : Real.exp 3 = Real.exp 1 ^ 3 := by
      rw [← Real.exp_nat_mul]
      norm_num
    have h4 : Real.exp 1 ^ 3 < 2.7182818286 ^ 3 := by
      apply pow_lt_pow_left hexp1 (Real.exp_pos 1).le
      norm_num
    rw [h3]
    calc Real.exp 1 ^ 3 < 2.7182818286 ^ 3 := h4
      _ < 21 := by norm_num
  have hlb : (1 / 100 : ℝ) ≤ 2 * softmaxR
      (fun b => -(denseSwmkScore cexAdj3 cexFeat3 3 defaultDistEps 0 b) / 1) 2 := by
    rw [softmaxR]
    have hnum : Real.exp (-(denseSwmkScore cexAdj3 cexFeat3 3 defaultDistEps 0 2) / 1)
        ≥ Real.exp (-3) := by
      apply Real.exp_le_exp.mpr
      rw [cex_score2, div_one, neg_le_neg_iff]
      have h1 : Real.sqrt (1 + defaultDistEps) ≤ 3 / 2 := by
        rw [show (3 / 2 : ℝ) = Real.sqrt ((3 / 2) ^ 2) by
          rw [Real.sqrt_sq (by norm_num)]]
        apply Real.sqrt_le_sqrt
        have := cex_eps_bounds.2
        norm_num
        linarith
      linarith
    have hden : (∑ b : Fin 3, Real.exp
        (-(denseSwmkScore cexAdj3 cexFeat3 3 defaultDistEps 0 b) / 1)) ≤ 3 := by
      have hterm : ∀ b : Fin 3, Real.exp
          (-(denseSwmkScore cexAdj3 cexFeat3 3 defaultDistEps 0 b) / 1) ≤ 1 := by
        intro b
        apply Real.exp_le_one_iff.mpr
        rw [div_one]
        simp only [neg_nonpos]
        rw [denseSwmkScore, clampF]
        rcases le_or_lt (∑ b' : Fin 3, denseTopkVal cexAdj3 3 0 b'.val *
            distance_matrix cexFeat3 defaultDistEps (denseTopkCol cexAdj3 3 0 b.val)
              (denseTopkCol cexAdj3 3 0 b'.val)) FMAX with h | h
        · rw [min_eq_left h]
          apply Finset.sum_nonneg
          intro b' _
          apply mul_nonneg
          · rw [denseTopkVal, cex_denseSlots]
            fin_cases b' <;> norm_num
          · exact Real.sqrt_nonneg _
        · rw [min_eq_right h.le]
          exact FMAX_pos.le
      calc (∑ b : Fin 3, Real.exp
            (-(denseSwmkScore cexAdj3 cexFeat3 3 defaultDistEps 0 b) / 1))
          ≤ ∑ _b : Fin 3, (1 : ℝ) :=
            Finset.sum_le_sum fun b _ => hterm b
        _ = 3 := by norm_num
    have hdenpos : 0 < ∑ b : Fin 3, Real.exp
        (-(denseSwmkScore cexAdj3 cexFeat3 3 defaultDistEps 0 b) / 1) :=
      Finset.sum_pos (fun b _ => Real.exp_pos _) ⟨2, Finset.mem_univ _⟩
    have hexp3' : (1 / 21 : ℝ) ≤ Real.exp (-3) := by
      rw [Real.exp_neg]
      rw [div_le_iff (by norm_num)]
      rw [inv_mul_eq_div, le_div_iff (Real.exp_pos 3)]
      linarith
    have hq : Real.exp (-3) / 3
        ≤ Real.exp (-(denseSwmkScore cexAdj3 cexFeat3 3 defaultDistEps 0 2) / 1) /
          (∑ b : Fin 3, Real.exp
            (-(denseSwmkScore cexAdj3 cexFeat3 3 defaultDistEps 0 b) / 1)) := by
      apply div_le_div (Real.exp_pos _).le hnum hdenpos hden
    have : (1 / 100 : ℝ) ≤ 2 * (Real.exp (-3) / 3) := by
      rw [mul_div_assoc']
      rw [le_div_iff (by norm_num)]
      linarith
    linarith
  refine ⟨by rw [cex_dense_entry]; exact hlb, cex_sparse_entry, ?_⟩
  intro h
  have h00 := congrFun (congrFun h 0) 0
  rw [cex_dense_entry, cex_sparse_entry] at h00
  have hpos : 0 < 2 * softmaxR
      (fun b => -(denseSwmkScore cexAdj3 cexFeat3 3 defaultDistEps 0 b) / 1) 2 := by
    have := softmaxR_pos
      (fun b => -(denseSwmkScore cexAdj3 cexFeat3 3 defaultDistEps 0 b) / 1)
      2 (by norm_num)
    linarith
  rw [h00] at hpos
  exact lt_irrefl 0 hpos

/-! ### Helpers for the general dense/sparse comparison -/

/-- With the guard at `0`, `_distance_matrix` is the exact distance. -/
lemma distance_matrix_zero_guard {n d : ℕ} (x : Fin n → Fin d → ℝ) (i j : Fin n) :
    distance_matrix x 0 i j = dist2 x i j := by
  rw [distance_matrix, dist2, add_zero, sqnorm_expansion,
    abs_of_nonneg (sum_sq_nonneg _)]

/-- A valid index pair of `partial_distance_matrix` yields the exact distance
of the indexed rows. -/
lemma partialDistanceMatrix_valid {n d k : ℕ} (x : Fin n → Fin d → ℝ)
    (idx : Fin n → Fin k → ℤ) (i : Fin n) (a b : Fin k) (ja jb : Fin n)
    (hja : idx i a = (ja.val : ℤ)) (hjb : idx i b = (jb.val : ℤ)) :
    partialDistanceMatrix x idx i a b = dist2 x ja jb := by
  have hna : ¬(idx i a = -1 ∨ idx i b = -1) := by
    rw [hja, hjb]
    push_neg
    constructor <;> omega
  rw [partialDistanceMatrix, if_neg hna, hja, hjb, dist2]
  rcases le_total ((jb.val : ℤ)) ((ja.val : ℤ)) with h | h
  · rw [min_eq_left h, max_eq_right h, getFeat_coe, getFeat_coe]
    congr 1
    exact Finset.sum_congr rfl fun c _ => by ring
  · rw [min_eq_right h, max_eq_left h, getFeat_coe, getFeat_coe]

lemma mem_nzPairs {n : ℕ} {A : Fin n → Fin n → ℝ} {i : Fin n} {e : Fin n × ℝ}
    (he : e ∈ nzPairs A i) : e.2 = A i e.1 ∧ e.2 ≠ 0 := by
  rw [nzPairs, List.mem_filterMap] at he
  obtain ⟨j, _, hj⟩ := he
  by_cases h : A i j ≠ 0
  · rw [if_pos h] at hj
    cases hj
    exact ⟨rfl, h⟩
  · rw [if_neg h] at hj
    cases hj

lemma mem_denseRowPairs {n : ℕ} {A : Fin n → Fin n → ℝ} {i : Fin n}
    {e : Fin n × ℝ} (he : e ∈ denseRowPairs A i) : e.2 = A i e.1 := by
  rw [denseRowPairs, List.mem_map] at he
  obtain ⟨j, _, hj⟩ := he
  rw [← hj]

lemma nzPairs_eq_filter {n : ℕ} (A : Fin n → Fin n → ℝ) (i : Fin n) :
    nzPairs A i = (denseRowPairs A i).filter (fun e => decide (e.2 ≠ 0)) := by
  rw [nzPairs, denseRowPairs]
  induction (List.finRange n) with
  | nil => rfl
  | cons a l ih =>
    rw [List.filterMap_cons, List.map_cons, List.filter_cons]
    by_cases h : A i a ≠ 0
    · rw [if_pos h, if_pos (by simpa using h), ih]
    · rw [if_neg h, if_neg (by simpa using h), ih]

lemma nzPairs_empty_iff {n : ℕ} (A : Fin n → Fin n → ℝ) (i : Fin n) :
    nzPairs A i = [] ↔ ∀ j, A i j = 0 := by
  constructor
  · intro h j
    by_contra hj
    have : (j, A i j) ∈ nzPairs A i := by
      rw [nzPairs, List.mem_filterMap]
      exact ⟨j, List.mem_finRange j, by rw [if_pos hj]⟩
    rw [h] at this
    cases this
  · intro h
    rw [nzPairs]
    apply List.filterMap_eq_nil_iff.mpr
    intro j _
    rw [if_neg (by simp [h j])]

/-- Under non-negative weights the descending sort of a full dense row is the
descending sort of its nonzero entries followed by (the sort of) its zero
entries. -/
lemma sortDesc_denseRow_split {n : ℕ} (A : Fin n → Fin n → ℝ)
    (hA : ∀ i j, 0 ≤ A i j) (i : Fin n) :
    sortDesc (denseRowPairs A i)
      = sortDesc (nzPairs A i)
        ++ sortDesc ((denseRowPairs A i).filter
            (fun e => !decide (e.2 ≠ 0))) := by
  apply List.eq_of_perm_of_sorted ?_ (sortDesc_sorted _) ?_
  · refine (sortDesc_perm _).trans ?_
    refine ((List.filter_append_perm (fun e => decide (e.2 ≠ 0))
      (denseRowPairs A i)).symm.trans ?_)
    apply List.Perm.append
    · rw [← nzPairs_eq_filter]
      exact (sortDesc_perm _).symm
    · exact (sortDesc_perm _).symm
  · refine List.pairwise_append.mpr ⟨sortDesc_sorted _, sortDesc_sorted _, ?_⟩
    intro a ha b hb
    have ha' : a ∈ nzPairs A i := (sortDesc_perm _).subset ha
    have hb' : b ∈ (denseRowPairs A i).filter (fun e => !decide (e.2 ≠ 0)) :=
      (sortDesc_perm _).subset hb
    have hb0 : b.2 = 0 := by
      have := List.of_mem_filter hb'
      simpa using this
    have hapos : 0 < a.2 := by
      obtain ⟨hval, hne⟩ := mem_nzPairs ha'
      have h0 : 0 ≤ a.2 := by
        rw [hval]
        exact hA i a.1
      exact lt_of_le_of_ne h0 (Ne.symm hne)
    exact Or.inl (hb0 ▸ hapos)

lemma denseTopkVal_nonneg {n : ℕ} (A : Fin n → Fin n → ℝ)
    (hA : ∀ i j, 0 ≤ A i j) (k : ℕ) (i : Fin n) (s : ℕ) :
    0 ≤ denseTopkVal A k i s := by
  rw [denseTopkVal]
  by_cases hlt : s < ((denseTopkSlots A k i).map Prod.snd).length
  · rw [List.getD_eq_getElem _ _ hlt]
    simp only [List.getElem_map]
    have hlen : s < (denseTopkSlots A k i).length := by
      rw [List.length_map] at hlt
      exact hlt
    have hmem : (denseTopkSlots A k i)[s] ∈ denseTopkSlots A k i :=
      List.getElem_mem _
    have hmem2 : (denseTopkSlots A k i)[s] ∈ denseRowPairs A i := by
      apply (sortDesc_perm _).subset
      exact List.mem_of_mem_take hmem
    rw [mem_denseRowPairs hmem2]
    exact hA i _
  · rw [List.getD_eq_default _ _ (by omega)]

/-- Valid-slot correspondence: below `min k deg`, the dense and sparse top-k
slots carry the same (column, weight) pair — the `s`-th entry of the
descending sort of the row's nonzero entries. -/
lemma c1_valid_slots {n : ℕ} (A : Fin n → Fin n → ℝ) (hA : ∀ i j, 0 ≤ A i j)
    (i : Fin n) (hdeg : ¬∀ j, A i j = 0) (k : ℕ) (s : Fin k)
    (hs : s.val < min k (sortDesc (nzPairs A i)).length)
    (h : s.val < (sortDesc (nzPairs A i)).length) :
    denseTopkVal A k i s.val = ((sortDesc (nzPairs A i)).get ⟨s.val, h⟩).2 ∧
    denseTopkCol A k i s.val = ((sortDesc (nzPairs A i)).get ⟨s.val, h⟩).1 ∧
    sparseVal A k i s = ((sortDesc (nzPairs A i)).get ⟨s.val, h⟩).2 ∧
    sparseIdx A k i s
      = (((sortDesc (nzPairs A i)).get ⟨s.val, h⟩).1.val : ℤ) := by
  have hseg : rowSeg (patchedCoo A) i = nzPairs A i := by
    rw [rowSeg_patchedCoo, if_neg hdeg]
  have hsk : s.val < k := lt_of_lt_of_le hs (min_le_left _ _)
  have hsplit := sortDesc_denseRow_split A hA i
  have hlen1 : s.val < (((sortDesc (nzPairs A i)).take k).map Prod.snd).length := by
    rw [List.length_map, List.length_take]
    omega
  have hlen1' : s.val < (((sortDesc (nzPairs A i)).take k).map
      (fun e => (e.1.val : ℤ))).length := by
    rw [List.length_map, List.length_take]
    omega
  have htk : s.val < ((sortDesc (nzPairs A i)).take k).length := by
    rw [List.length_take]
    omega
  refine ⟨?_, ?_, ?_, ?_⟩
  · rw [denseTopkVal, denseTopkSlots, hsplit, List.take_append_eq_append_take]
    have hlen2 : s.val < ((((sortDesc (nzPairs A i)).take k
        ++ ((sortDesc ((denseRowPairs A i).filter
            (fun e => !decide (e.2 ≠ 0)))).take
          (k - (sortDesc (nzPairs A i)).length)))).map Prod.snd).length := by
      rw [List.length_map, List.length_append, List.length_take]
      omega
    rw [List.getD_eq_getElem _ _ hlen2]
    simp only [List.getElem_map]
    rw [List.getElem_append_left htk]
    simp [List.getElem_take, List.get_eq_getElem]
  · rw [denseTopkCol, denseTopkSlots, hsplit, List.take_append_eq_append_take]
    have hlen2 : s.val < ((((sortDesc (nzPairs A i)).take k
        ++ ((sortDesc ((denseRowPairs A i).filter
            (fun e => !decide (e.2 ≠ 0)))).take
          (k - (sortDesc (nzPairs A i)).length)))).map Prod.fst).length := by
      rw [List.length_map, List.length_append, List.length_take]
      omega
    rw [List.getD_eq_getElem _ _ hlen2]
    simp only [List.getElem_map]
    rw [List.getElem_append_left htk]
    simp [List.getElem_take, List.get_eq_getElem]
  · rw [sparseVal, topkVal, topkSlots, hseg, List.getD_eq_getElem _ _ hlen1]
    simp [List.getElem_take, List.get_eq_getElem]
  · rw [sparseIdx, topkIdx, topkSlots, hseg, List.getD_eq_getElem _ _ hlen1']
    simp [List.getElem_take, List.get_eq_getElem]

/-- Invalid-slot correspondence: at and beyond `min k deg` the dense slot
weight is `0` and the sparse slot is the zero-weight sentinel. -/
lemma c1_invalid_slots {n : ℕ} (A : Fin n → Fin n → ℝ) (hA : ∀ i j, 0 ≤ A i j)
    (i : Fin n) (hdeg : ¬∀ j, A i j = 0) (k : ℕ) (hk : k ≤ n) (s : Fin k)
    (hs : min k (sortDesc (nzPairs A i)).length ≤ s.val) :
    denseTopkVal A k i s.val = 0 ∧ sparseVal A k i s = 0 ∧
    sparseIdx A k i s = -1 := by
  have hseg : rowSeg (patchedCoo A) i = nzPairs A i := by
    rw [rowSeg_patchedCoo, if_neg hdeg]
  have hLlt : (sortDesc (nzPairs A i)).length < k := by
    rcases lt_or_le (sortDesc (nzPairs A i)).length k with h | h
    · exact h
    · exfalso
      rw [min_eq_left h] at hs
      omega
  have hms : (sortDesc (nzPairs A i)).length ≤ s.val := by
    rw [min_eq_right hLlt.le] at hs
    exact hs
  refine ⟨?_, ?_, ?_⟩
  · rw [denseTopkVal, denseTopkSlots, sortDesc_denseRow_split A hA i,
      List.take_append_eq_append_take]
    have htkfull : ((sortDesc (nzPairs A i)).take k) = sortDesc (nzPairs A i) :=
      List.take_of_length_le hLlt.le
    rw [htkfull]
    have hfull_len : (sortDesc (denseRowPairs A i)).length = n := by
      rw [sortDesc_length, denseRowPairs, List.length_map, List.length_finRange]
    have hzlen : (sortDesc (nzPairs A i)).length
        + (sortDesc ((denseRowPairs A i).filter
            (fun e => !decide (e.2 ≠ 0)))).length = n := by
      have h2 := congrArg List.length (sortDesc_denseRow_split A hA i)
      rw [hfull_len, List.length_append] at h2
      omega
    have hsnd : ∀ (idx : ℕ)
        (hidx : idx < ((sortDesc ((denseRowPairs A i).filter
            (fun e => !decide (e.2 ≠ 0)))).take
          (k - (sortDesc (nzPairs A i)).length)).length),
        (((sortDesc ((denseRowPairs A i).filter
            (fun e => !decide (e.2 ≠ 0)))).take
          (k - (sortDesc (nzPairs A i)).length))[idx]).2 = 0 := by
      intro idx hidx
      have hmem : ((sortDesc ((denseRowPairs A i).filter
            (fun e => !decide (e.2 ≠ 0)))).take
          (k - (sortDesc (nzPairs A i)).length))[idx]
          ∈ (denseRowPairs A i).filter (fun e => !decide (e.2 ≠ 0)) := by
        apply (sortDesc_perm _).subset
        exact List.mem_of_mem_take (List.getElem_mem _)
      have h3 := List.of_mem_filter hmem
      simpa using h3
    have hlen2 : s.val < ((sortDesc (nzPairs A i)
        ++ (sortDesc ((denseRowPairs A i).filter
            (fun e => !decide (e.2 ≠ 0)))).take
          (k - (sortDesc (nzPairs A i)).length)).map Prod.snd).length := by
      rw [List.length_map, List.length_append, List.length_take]
      have := s.isLt
      omega
    rw [List.getD_eq_getElem _ _ hlen2]
    simp only [List.getElem_map]
    rw [List.getElem_append_right hms]
    exact hsnd _ _
  · rw [sparseVal, topkVal]
    apply List.getD_eq_default
    rw [List.length_map, topkSlots_length, hseg]
    rw [sortDesc_length] at hs
    exact hs
  · rw [sparseIdx, topkIdx]
    apply List.getD_eq_default
    rw [List.length_map, topkSlots_length, hseg]
    rw [sortDesc_length] at hs
    exact hs

/-- On a valid slot, the dense-path criterion at zero distance guard equals
the sparse-path criterion. -/
lemma c1_score_eq {n d : ℕ} (A : Fin n → Fin n → ℝ) (x : Fin n → Fin d → ℝ)
    (hA : ∀ i j, 0 ≤ A i j) (i : Fin n) (hdeg : ¬∀ j, A i j = 0) (k : ℕ)
    (hk : k ≤ n) (s : Fin k)
    (hs : s.val < min k (sortDesc (nzPairs A i)).length) :
    denseSwmkScore A x k 0 i s = sparseSwmkScore A x k i s := by
  have h : s.val < (sortDesc (nzPairs A i)).length :=
    lt_of_lt_of_le hs (min_le_right _ _)
  obtain ⟨hdv, hdc, hsv, hsi⟩ := c1_valid_slots A hA i hdeg k s hs h
  have hsent : sparseIdx A k i s ≠ -1 := by
    rw [hsi]
    omega
  rw [denseSwmkScore, sparseSwmkScore, if_neg hsent]
  congr 1
  apply Finset.sum_congr rfl
  intro b _
  by_cases hb : b.val < min k (sortDesc (nzPairs A i)).length
  · have hb' : b.val < (sortDesc (nzPairs A i)).length :=
      lt_of_lt_of_le hb (min_le_right _ _)
    obtain ⟨hdvb, hdcb, hsvb, hsib⟩ := c1_valid_slots A hA i hdeg k b hb hb'
    rw [hdvb, hsvb, distance_matrix_zero_guard, hdc, hdcb,
      partialDistanceMatrix_valid x (sparseIdx A k) i s b _ _ hsi hsib]
  · push_neg at hb
    obtain ⟨hdvb, hsvb, _⟩ := c1_invalid_slots A hA i hdeg k hk b hb
    rw [hdvb, hsvb, zero_mul, zero_mul]

/-- `(a/Z)/(b/Z) = a/b` (also when `b = 0`, both sides being `0`). -/
lemma div_div_cancel_common (a b Z : ℝ) (hZ : Z ≠ 0) :
    (a / Z) / (b / Z) = a / b := by
  rcases eq_or_ne b 0 with rfl | hb
  · rw [zero_div, div_zero, div_zero]
  · field_simp

/-- Per-row agreement of the two paths with weight correction, at zero
epsilons. -/
lemma c1_true_row {n d : ℕ} (A : Fin n → Fin n → ℝ) (x : Fin n → Fin d → ℝ)
    (k : ℕ) (T : ℝ) (hA : ∀ i j, 0 ≤ A i j) (hk : k ≤ n) (i : Fin n) (c : Fin d) :
    dense_cpu_soft_weighted_medoid_k_neighborhood A x k T true 0 0 i c
      = soft_weighted_medoid_k_neighborhood_sparse A x k T true 0 i c := by
  rcases Nat.eq_zero_or_pos k with rfl | hk1
  · rw [dense_cpu_soft_weighted_medoid_k_neighborhood,
      soft_weighted_medoid_k_neighborhood_sparse, sparseRowSum_eq]
    congr 1
    have hsc0 : ∀ j, denseScatter A x 0 T true 0 i j = 0 := by
      intro j
      rw [denseScatter]
      simp
    have htw0 : ∀ j, denseTopkWeights A x 0 T true 0 0 i j = 0 := by
      intro j
      rw [denseTopkWeights, if_pos rfl, hsc0 j, zero_div]
    rw [Finset.sum_congr rfl fun j _ => by rw [htw0 j, zero_mul]]
    simp
  by_cases hdeg : ∀ j, A i j = 0
  · have hrz : (∑ j, A i j) = 0 := Finset.sum_eq_zero fun j _ => hdeg j
    rw [dense_cpu_soft_weighted_medoid_k_neighborhood,
      soft_weighted_medoid_k_neighborhood_sparse, sparseRowSum_eq, hrz,
      zero_mul, zero_mul]
  have hLpos : 0 < (sortDesc (nzPairs A i)).length := by
    rw [sortDesc_length]
    rcases Nat.eq_zero_or_pos (nzPairs A i).length with hz | hp
    · exact absurd ((nzPairs_empty_iff A i).mp (List.length_eq_zero.mp hz)) hdeg
    · exact hp
  have ha0 : (⟨0, hk1⟩ : Fin k).val < min k (sortDesc (nzPairs A i)).length :=
    lt_min hk1 hLpos
  have ha0' : (⟨0, hk1⟩ : Fin k).val < (sortDesc (nzPairs A i)).length := hLpos
  obtain ⟨hdv0, _, _, _⟩ := c1_valid_slots A hA i hdeg k ⟨0, hk1⟩ ha0 ha0'
  have hv0pos : 0 < denseTopkVal A k i (⟨0, hk1⟩ : Fin k).val := by
    rw [hdv0]
    have hmem : (sortDesc (nzPairs A i)).get
        ⟨(⟨0, hk1⟩ : Fin k).val, ha0'⟩ ∈ nzPairs A i :=
      (sortDesc_perm _).subset (List.get_mem _ _ _)
    obtain ⟨hval, hne⟩ := mem_nzPairs hmem
    have h0 : 0 ≤ ((sortDesc (nzPairs A i)).get
        ⟨(⟨0, hk1⟩ : Fin k).val, ha0'⟩).2 := by
      rw [hval]
      exact hA i _
    exact lt_of_le_of_ne h0 (Ne.symm hne)
  set Zd := ∑ b : Fin k, Real.exp (-(denseSwmkScore A x k 0 i b) / T) with hZd
  set Zs := ∑ b : Fin k, Real.exp (-(sparseSwmkScore A x k i b) / T) with hZs
  have hZdpos : 0 < Zd :=
    Finset.sum_pos (fun b _ => Real.exp_pos _) ⟨⟨0, hk1⟩, Finset.mem_univ _⟩
  have hZspos : 0 < Zs :=
    Finset.sum_pos (fun b _ => Real.exp_pos _) ⟨⟨0, hk1⟩, Finset.mem_univ _⟩
  set Nd := ∑ a : Fin k, Real.exp (-(denseSwmkScore A x k 0 i a) / T)
    * denseTopkVal A k i a.val * x (denseTopkCol A k i a.val) c with hNd
  set DD := ∑ a : Fin k, Real.exp (-(denseSwmkScore A x k 0 i a) / T)
    * denseTopkVal A k i a.val with hDD
  have hDDpos : 0 < DD := by
    rw [hDD]
    apply Finset.sum_pos'
    · intro a _
      exact mul_nonneg (Real.exp_pos _).le (denseTopkVal_nonneg A hA k i _)
    · exact ⟨⟨0, hk1⟩, Finset.mem_univ _, mul_pos (Real.exp_pos _) hv0pos⟩
  have hdense_eq : dense_cpu_soft_weighted_medoid_k_neighborhood A x k T true 0 0 i c
      = (∑ j, A i j) * (Nd / DD) := by
    rw [dense_cpu_soft_weighted_medoid_k_neighborhood]
    congr 1
    have hsm : ∀ a : Fin k, softmaxR (fun b => -(denseSwmkScore A x k 0 i b) / T) a
        = Real.exp (-(denseSwmkScore A x k 0 i a) / T) / Zd := fun a => rfl
    have hscat : ∀ j, denseScatter A x k T true 0 i j
        = ∑ a : Fin k, if denseTopkCol A k i a.val = j then
            Real.exp (-(denseSwmkScore A x k 0 i a) / T) / Zd
              * denseTopkVal A k i a.val else 0 := by
      intro j
      rw [denseScatter]
      apply Finset.sum_congr rfl
      intro a _
      by_cases h : denseTopkCol A k i a.val = j
      · rw [if_pos h, if_pos h, if_pos rfl, hsm a]
      · rw [if_neg h, if_neg h]
    have htw : ∀ j, denseTopkWeights A x k T true 0 0 i j
        = denseScatter A x k T true 0 i j /
            ((∑ j', denseScatter A x k T true 0 i j') + 0) := by
      intro j
      rw [denseTopkWeights, if_pos rfl]
    have hnum : (∑ j, denseScatter A x k T true 0 i j * x j c) = Nd / Zd := by
      rw [Finset.sum_congr rfl fun j _ => by rw [hscat j],
        scatter_collapse (fun a : Fin k => denseTopkCol A k i a.val)
          (fun a => Real.exp (-(denseSwmkScore A x k 0 i a) / T) / Zd
            * denseTopkVal A k i a.val) (fun j => x j c), hNd, Finset.sum_div]
      apply Finset.sum_congr rfl
      intro a _
      rw [div_mul_eq_mul_div, div_mul_eq_mul_div]
    have hden : (∑ j', denseScatter A x k T true 0 i j') = DD / Zd := by
      rw [Finset.sum_congr rfl fun j _ => by rw [hscat j],
        scatter_collapse_sum (fun a : Fin k => denseTopkCol A k i a.val)
          (fun a => Real.exp (-(denseSwmkScore A x k 0 i a) / T) / Zd
            * denseTopkVal A k i a.val), hDD, Finset.sum_div]
      apply Finset.sum_congr rfl
      intro a _
      rw [div_mul_eq_mul_div]
    rw [Finset.sum_congr rfl fun j _ => by rw [htw j, div_mul_eq_mul_div],
      ← Finset.sum_div, hnum, hden, add_zero,
      div_div_cancel_common _ _ _ (ne_of_gt hZdpos)]
  have hEeq : ∀ a : Fin k, a.val < min k (sortDesc (nzPairs A i)).length →
      Real.exp (-(sparseSwmkScore A x k i a) / T)
        = Real.exp (-(denseSwmkScore A x k 0 i a) / T) := by
    intro a ha
    rw [c1_score_eq A x hA i hdeg k hk a ha]
  have hDDs : (∑ b : Fin k, Real.exp (-(sparseSwmkScore A x k i b) / T)
      * sparseVal A k i b) = DD := by
    rw [hDD]
    apply Finset.sum_congr rfl
    intro b _
    by_cases hb : b.val < min k (sortDesc (nzPairs A i)).length
    · have hb' := lt_of_lt_of_le hb (min_le_right _ _)
      obtain ⟨hdvb, _, hsvb, _⟩ := c1_valid_slots A hA i hdeg k b hb hb'
      rw [hEeq b hb, hdvb, hsvb]
    · push_neg at hb
      obtain ⟨hdvb, hsvb, _⟩ := c1_invalid_slots A hA i hdeg k hk b hb
      rw [hdvb, hsvb, mul_zero, mul_zero]
  have hsparse_eq : soft_weighted_medoid_k_neighborhood_sparse A x k T true 0 i c
      = (∑ j, A i j) * (Nd / DD) := by
    rw [soft_weighted_medoid_k_neighborhood_sparse, sparseRowSum_eq]
    congr 1
    have hsmS : ∀ a : Fin k,
        softmaxR (fun b => -(sparseSwmkScore A x k i b) / T) a
          = Real.exp (-(sparseSwmkScore A x k i a) / T) / Zs := fun a => rfl
    have hsmsum : (∑ b : Fin k,
        softmaxR (fun b' => -(sparseSwmkScore A x k i b') / T) b
          * sparseVal A k i b) = DD / Zs := by
      rw [← hDDs, Finset.sum_div]
      apply Finset.sum_congr rfl
      intro b _
      rw [hsmS b, div_mul_eq_mul_div]
    have harith : ∀ E v xv : ℝ,
        E / Zs * v / (DD / Zs + 0) * xv = E * v * xv / DD := by
      intro E v xv
      rw [add_zero, div_mul_eq_mul_div E Zs v,
        div_div_cancel_common _ _ _ (ne_of_gt hZspos), div_mul_eq_mul_div]
    have hterm : ∀ a : Fin k,
        (if sparseIdx A k i a = -1 then 0
         else sparseReliable A x k T true 0 i a * getFeat x (sparseIdx A k i a) c)
        = Real.exp (-(denseSwmkScore A x k 0 i a) / T)
            * denseTopkVal A k i a.val * x (denseTopkCol A k i a.val) c / DD := by
      intro a
      by_cases ha : a.val < min k (sortDesc (nzPairs A i)).length
      · have ha' := lt_of_lt_of_le ha (min_le_right _ _)
        obtain ⟨hdva, hdca, hsva, hsia⟩ := c1_valid_slots A hA i hdeg k a ha ha'
        have hasent : sparseIdx A k i a ≠ -1 := by
          rw [hsia]
          omega
        have hfeat : getFeat x (sparseIdx A k i a) c
            = x (denseTopkCol A k i a.val) c := by
          rw [hsia, getFeat_coe, hdca]
        rw [if_neg hasent, sparseReliable, if_pos rfl, hsmsum, hsmS a,
          hEeq a ha, hfeat, hsva, ← hdva, harith]
      · push_neg at ha
        obtain ⟨hdva, hsva, hsia⟩ := c1_invalid_slots A hA i hdeg k hk a ha
        rw [if_pos hsia, hdva, mul_zero, zero_mul, zero_div]
    rw [Finset.sum_congr rfl fun a _ => hterm a, ← Finset.sum_div, hNd]
  rw [hdense_eq, hsparse_eq]

/-- Per-row agreement of the two paths without weight correction when the row
has at least `k` nonzero entries. -/
lemma c1_false_row {n d : ℕ} (A : Fin n → Fin n → ℝ) (x : Fin n → Fin d → ℝ)
    (k : ℕ) (T : ℝ) (hA : ∀ i j, 0 ≤ A i j) (hk : k ≤ n)
    (hfull : ∀ i, k ≤ (nzPairs A i).length) (i : Fin n) (c : Fin d) :
    dense_cpu_soft_weighted_medoid_k_neighborhood A x k T false 0 0 i c
      = soft_weighted_medoid_k_neighborhood_sparse A x k T false 0 i c := by
  rcases Nat.eq_zero_or_pos k with rfl | hk1
  · rw [dense_cpu_soft_weighted_medoid_k_neighborhood,
      soft_weighted_medoid_k_neighborhood_sparse, sparseRowSum_eq]
    congr 1
    have htw0 : ∀ j, denseTopkWeights A x 0 T false 0 0 i j = 0 := by
      intro j
      have h1 : denseTopkWeights A x 0 T false 0 0 i j
          = denseScatter A x 0 T false 0 i j := rfl
      rw [h1, denseScatter]
      simp
    rw [Finset.sum_congr rfl fun j _ => by rw [htw0 j, zero_mul]]
    simp
  · have hdeg : ¬∀ j, A i j = 0 := by
      intro hz
      have h1 := hfull i
      rw [List.length_eq_zero.mpr ((nzPairs_empty_iff A i).mpr hz)] at h1
      omega
    have hm : min k (sortDesc (nzPairs A i)).length = k := by
      rw [sortDesc_length]
      exact min_eq_left (hfull i)
    have hzeq : (fun b : Fin k => -(denseSwmkScore A x k 0 i b) / T)
        = (fun b : Fin k => -(sparseSwmkScore A x k i b) / T) := by
      funext b
      rw [c1_score_eq A x hA i hdeg k hk b (by rw [hm]; exact b.isLt)]
    rw [dense_cpu_soft_weighted_medoid_k_neighborhood,
      soft_weighted_medoid_k_neighborhood_sparse, sparseRowSum_eq]
    congr 1
    have htw : ∀ j, denseTopkWeights A x k T false 0 0 i j
        = denseScatter A x k T false 0 i j := fun j => rfl
    have hscat : ∀ j, denseScatter A x k T false 0 i j
        = ∑ a : Fin k, if denseTopkCol A k i a.val = j then
            softmaxR (fun b => -(denseSwmkScore A x k 0 i b) / T) a else 0 :=
      fun j => rfl
    rw [Finset.sum_congr rfl fun j _ => by rw [htw j, hscat j],
      scatter_collapse (fun a : Fin k => denseTopkCol A k i a.val)
        (fun a => softmaxR (fun b => -(denseSwmkScore A x k 0 i b) / T) a)
        (fun j => x j c)]
    apply Finset.sum_congr rfl
    intro a _
    have ha : a.val < min k (sortDesc (nzPairs A i)).length := by
      rw [hm]
      exact a.isLt
    have ha' := lt_of_lt_of_le ha (min_le_right _ _)
    obtain ⟨hdva, hdca, hsva, hsia⟩ := c1_valid_slots A hA i hdeg k a ha ha'
    have hasent : sparseIdx A k i a ≠ -1 := by
      rw [hsia]
      omega
    have hrel : sparseReliable A x k T false 0 i a
        = softmaxR (fun b => -(sparseSwmkScore A x k i b) / T) a := rfl
    rw [if_neg hasent, hrel, hsia, getFeat_coe, hdca, hzeq]

/-- C1 (amended): with non-negative weights and `k ≤ n`, in exact arithmetic
with the numerical-guard epsilons set to zero, the dense CPU implementation
and the sparse branch of the soft weighted medoid top-k neighborhood agree
exactly whenever `with_weight_correction=True` (including rows with fewer
than `k` nonzero entries and fully disconnected rows), and with
`with_weight_correction=False` whenever every row has at least `k` nonzero
entries. -/
theorem dense_sparse_soft_medoid_agree {n d : ℕ} (A : Fin n → Fin n → ℝ)
    (x : Fin n → Fin d → ℝ) (k : ℕ) (T : ℝ) (hA : ∀ i j, 0 ≤ A i j)
    (hk : k ≤ n) :
    dense_cpu_soft_weighted_medoid_k_neighborhood A x k T true 0 0
      = soft_weighted_medoid_k_neighborhood_sparse A x k T true 0 ∧
    ((∀ i, k ≤ (nzPairs A i).length) →
      dense_cpu_soft_weighted_medoid_k_neighborhood A x k T false 0 0
        = soft_weighted_medoid_k_neighborhood_sparse A x k T false 0) := by
  constructor
  · funext i c
    exact c1_true_row A x k T hA hk i c
  · intro hfull
    funext i c
    exact c1_false_row A x k T hA hk hfull i c

/-- Witness for the amended C1 at the spec's disconnected-node 4-node
adjacency (row 3 all zero) with `k = 2 ≤ n = 4` and weight correction. -/
theorem dense_sparse_soft_medoid_agree_witness :
    (∀ i j : Fin 4, 0 ≤ discAdj4 i j) ∧ (2 ≤ 4) ∧
    dense_cpu_soft_weighted_medoid_k_neighborhood discAdj4 discFeat4 2 1 true 0 0
      = soft_weighted_medoid_k_neighborhood_sparse discAdj4 discFeat4 2 1 true 0 := by
  have hA : ∀ i j : Fin 4, 0 ≤ discAdj4 i j := by
    intro i j
    fin_cases i <;> fin_cases j <;> norm_num [discAdj4]
  exact ⟨hA, by norm_num,
    (dense_sparse_soft_medoid_agree discAdj4 discFeat4 2 1 hA (by norm_num)).1⟩

end

end RGNN
